import Mathlib

/-!
# Verification of the rust-proofs labeling / encoding core

Shallow embedding of the labeling and encoding engine of the
`filecoin-project/rust-proofs` repository, together with proofs about it.

Byte buffers are modelled as `List Nat` (each entry one byte, `< 256` where it
matters), u32-word slabs as `List Nat` (each entry one 32-bit word), and
machine integers as `Nat` with explicit truncation where the source truncates.
SHA-256 (the external `sha2raw` / `sha2` crates) is treated as an abstract
function; only the properties the source relies on (digest length and byte
range) appear as hypotheses.
-/

namespace RustProofs

/-! ## Byte-level primitives -/

/-- Node size in bytes (`storage_proofs_core::util::NODE_SIZE`). -/
def NODE_SIZE : Nat := 32

/-- Interpret a list of bytes as a little-endian natural number. -/
def leToNat : List Nat → Nat
  | [] => 0
  | b :: bs => b + 256 * leToNat bs

/-- The `len` little-endian bytes of `n` (truncating above `256^len`). -/
def natToLe : Nat → Nat → List Nat
  | 0, _ => []
  | len + 1, n => (n % 256) :: natToLe len (n / 256)

/-- Big-endian byte encoding of width `width` (Rust `to_be_bytes`). -/
def beBytes (width n : Nat) : List Nat :=
  (natToLe width n).reverse

/-- Overwrite `l[start .. start + vals.length)` with `vals`
    (Rust `copy_from_slice` into a subslice). -/
def listWrite (l : List Nat) (start : Nat) (vals : List Nat) : List Nat :=
  l.take start ++ vals ++ l.drop (start + vals.length)

/-- The slice `l[s .. s + n)`. -/
def listSlice (l : List Nat) (s n : Nat) : List Nat :=
  (l.drop s).take n

instance instDecEqExcept {ε α : Type} [DecidableEq ε] [DecidableEq α] :
    DecidableEq (Except ε α) := fun x y =>
  match x, y with
  | Except.ok a, Except.ok b =>
    if h : a = b then isTrue (by rw [h]) else
      isFalse (fun g => h (Except.ok.inj g))
  | Except.error a, Except.error b =>
    if h : a = b then isTrue (by rw [h]) else
      isFalse (fun g => h (Except.error.inj g))
  | Except.ok _, Except.error _ => isFalse (fun g => Except.noConfusion g)
  | Except.error _, Except.ok _ => isFalse (fun g => Except.noConfusion g)

/-! ## Chunking (Rust `chunks` / `par_chunks` over byte slices) -/

/-- Fuel-driven chunking worker: with `fuel ≥ l.length` it splits `l` into
    chunks of `n + 1` elements, the last possibly shorter. -/
def chunksFuel (n : Nat) : Nat → List Nat → List (List Nat)
  | _, [] => []
  | 0, x :: rest => [x :: rest]
  | fuel + 1, x :: rest =>
    (x :: rest).take (n + 1) :: chunksFuel n fuel ((x :: rest).drop (n + 1))

/-- Split a list into chunks of `n + 1` elements; the last chunk may be
    shorter. -/
def chunksP1 (n : Nat) (l : List Nat) : List (List Nat) :=
  chunksFuel n l.length l

/-- 32-byte node chunks (`data.chunks_mut(NODE_SIZE)`). -/
def chunks32 (l : List Nat) : List (List Nat) := chunksP1 31 l

/-! ## The NSE hash prefix (`nse/vanilla/labels.rs::hash_prefix`) -/

/-- `hash_prefix` from `nse/vanilla/labels.rs`: a 32-byte array, first filled
    with zeroes, then `prefix[..4] = layer.to_be_bytes()` and
    `prefix[4..12] = node_index.to_be_bytes()`. -/
def hash_prefix (layer : Nat) (node_index : Nat) : List Nat :=
  let p0 := List.replicate 32 0
  let p1 := listWrite p0 0 (beBytes 4 layer)
  listWrite p1 4 (beBytes 8 node_index)

/-! ## NSE labeling (`storage-proofs/porep/src/nse/vanilla/labels.rs`) -/
namespace Nse

/-- The BLS12-381 scalar field modulus `r` (the order of `Fr`). -/
def Fr_MODULUS : Nat :=
  52435875175126190479447740508185965837690552500527637822603658699938581184513

/-- `Domain::try_from_bytes` of the `storage_proofs_core` hashers. Modelled
    from the spec: a 32-byte little-endian value is accepted exactly when it
    is a canonical field element. -/
def try_from_bytes (b : List Nat) : Option Nat :=
  if b.length = 32 ∧ leToNat b < Fr_MODULUS then some (leToNat b) else none

/-- `batch_hasher.rs::truncate_hash`. Modelled from the spec: the top two
    bits of the last byte are cleared, `hash[31] &= 0b0011_1111`. -/
def truncate_hash (hash : List Nat) : List Nat :=
  listWrite hash 31 [hash.getD 31 0 &&& 0x3F]

/-- `nse/vanilla/mod.rs::Config`. -/
structure Config where
  k : Nat
  num_nodes_window : Nat
  degree_expander : Nat
  degree_butterfly : Nat
  num_expander_layers : Nat
  num_butterfly_layers : Nat
  sector_size : Nat

/-- Modelled from the spec: `Config::num_layers`, the mask plus expander
    layers followed by the butterfly layers (the final one encodes). -/
def Config.num_layers (c : Config) : Nat :=
  c.num_expander_layers + c.num_butterfly_layers

/-- Modelled from the spec: `Config::window_size` in bytes,
    `num_nodes_window * NODE_SIZE`. -/
def Config.window_size (c : Config) : Nat :=
  c.num_nodes_window * NODE_SIZE

/-- The hashing back-ends the NSE layer functions call. `sha_digest` stands
    for the external `sha2raw::Sha256` (the digest of the concatenation of
    all `input` calls followed by `finish`); `batchHash` models
    `batch_hasher.rs::batch_hash` and the parent maps model
    `ExpanderGraph::expanded_parents` and `ButterflyGraph::parents`, whose
    sources are not under `src/`. Modelled from the spec: all are
    deterministic functions; the spec fixes parents as index lists and
    `batch_hash` as a batch-hash of `k` candidate parent indices over the
    previous layer. The proofs use only determinism and the output format. -/
structure Oracle where
  sha_digest : List Nat → List Nat
  batchHash : Nat → Nat → List Nat → List Nat → List Nat → List Nat
  expanderParents : Config → Nat → List Nat
  butterflyParents : Config → Nat → Nat → List Nat

/-- The digest format the source relies on: `Sha256` digests are 32 bytes,
    and `batch_hash` returns a 32-byte node. -/
def OracleGood (o : Oracle) : Prop :=
  (∀ m, (o.sha_digest m).length = 32 ∧ ∀ b ∈ o.sha_digest m, b < 256) ∧
  (∀ k d p ps li, (o.batchHash k d p ps li).length = 32)

/-- `mask_layer`: generate the mask layer for one window. The layer is
    always layer 1; each 32-byte node at `node_index` is
    `truncate_hash(Sha256::digest([hash_prefix(1, abs_index), replica_id]))`. -/
def mask_layer (o : Oracle) (config : Config) (window_index : Nat)
    (replica_id : List Nat) (layer_out : List Nat) :
    Except String Unit × List Nat :=
  if layer_out.length = config.window_size then
    (Except.ok (),
      ((List.range config.num_nodes_window).map (fun node_index =>
        let node_absolute_index :=
          window_index * config.num_nodes_window + node_index
        truncate_hash (o.sha_digest
          ( hash_prefix 1 node_absolute_index ++ replica_id)))).flatten)
  else
    (Except.error "layer_out must be of size window_size", layer_out)

/-- `expander_layer`: generate a single expander layer for one window. Each
    node hashes the prefix and replica id and then batch-hashes its expander
    parents over `layer_in`. -/
def expander_layer (o : Oracle) (config : Config) (window_index : Nat)
    (replica_id : List Nat) (layer_index : Nat)
    (layer_in layer_out : List Nat) : Except String Unit × List Nat :=
  if layer_in.length ≠ layer_out.length then
    (Except.error "layer_in and layer_out must of the same size", layer_out)
  else if layer_out.length ≠ config.window_size then
    (Except.error "layer_out must be of size window_size", layer_out)
  else if ¬(1 < layer_index ∧ layer_index ≤ config.num_expander_layers) then
    (Except.error "layer index must be in range", layer_out)
  else
    (Except.ok (),
      ((List.range config.num_nodes_window).map (fun node_index =>
        let parents := o.expanderParents config node_index
        let node_absolute_index :=
          window_index * config.num_nodes_window + node_index
        o.batchHash config.k config.degree_expander
          ( hash_prefix layer_index node_absolute_index ++ replica_id)
          parents layer_in)).flatten)

/-- `Itertools::tuples()` over a parent list: consecutive pairs, dropping an
    unpaired tail. -/
def pairUp : List Nat → List (Nat × Nat)
  | a :: b :: rest => (a, b) :: pairUp rest
  | _ => []

/-- The parent bytes a butterfly node hashes: for each parent pair `(a, b)`,
    the 32-byte nodes `layer_in[a*32..][..32]` and `layer_in[b*32..][..32]`. -/
def butterflyParentsBytes (layer_in : List Nat) (parents : List Nat) : List Nat :=
  ((pairUp parents).map (fun pq =>
    listSlice layer_in (pq.1 * NODE_SIZE) NODE_SIZE ++
    listSlice layer_in (pq.2 * NODE_SIZE) NODE_SIZE)).flatten

/-- `butterfly_layer`: generate a single butterfly layer. -/
def butterfly_layer (o : Oracle) (config : Config) (window_index : Nat)
    (replica_id : List Nat) (layer_index : Nat)
    (layer_in layer_out : List Nat) : Except String Unit × List Nat :=
  if layer_in.length ≠ layer_out.length then
    (Except.error "layer_in and layer_out must of the same size", layer_out)
  else if layer_out.length ≠ config.window_size then
    (Except.error "layer_out must be of size window_size", layer_out)
  else if ¬(config.num_expander_layers < layer_index ∧
      layer_index < config.num_expander_layers + config.num_butterfly_layers) then
    (Except.error "layer index must be in range", layer_out)
  else
    (Except.ok (),
      ((List.range config.num_nodes_window).map (fun node_index =>
        let node_absolute_index :=
          window_index * config.num_nodes_window + node_index
        truncate_hash (o.sha_digest
          ( hash_prefix layer_index node_absolute_index ++ replica_id ++
            butterflyParentsBytes layer_in
              (o.butterflyParents config node_index layer_index))))).flatten)

/-- The `key` hashed for one node of the butterfly encode/decode layer
    (identical to the per-node hash of `butterfly_layer`). -/
def butterflyKey (o : Oracle) (config : Config) (window_index : Nat)
    (replica_id : List Nat) (layer_index : Nat) (layer_in : List Nat)
    (node_index : Nat) : List Nat :=
  truncate_hash (o.sha_digest
    ( hash_prefix layer_index (window_index * config.num_nodes_window + node_index)
      ++ replica_id ++
      butterflyParentsBytes layer_in
        (o.butterflyParents config node_index layer_index)))

namespace Encode

/-- Modelled from the spec: `crate::encode::encode`, addition in the scalar
    field on 32-byte little-endian values. -/
def encode (key data : Nat) : Nat := (key + data) % Fr_MODULUS

/-- Modelled from the spec: `crate::encode::decode`, the inverse field
    subtraction. -/
def decode (key data : Nat) : Nat :=
  (data + Fr_MODULUS - key % Fr_MODULUS) % Fr_MODULUS

end Encode

/-- The per-node loop of `butterfly_encode_decode_layer`: derive the key for
    the node, parse key and data node as field elements (`?`-propagating the
    first failure, leaving the remaining nodes unwritten), apply `op`, and
    write the canonical bytes of the result back in place. -/
def butterflyEncDecGo (o : Oracle) (config : Config) (window_index : Nat)
    (replica_id : List Nat) (layer_index : Nat) (layer_in : List Nat)
    (op : Nat → Nat → Nat) :
    Nat → List (List Nat) → Except String Unit × List (List Nat)
  | _, [] => (Except.ok (), [])
  | node_index, data_node :: rest =>
    let key := butterflyKey o config window_index replica_id layer_index
      layer_in node_index
    match try_from_bytes key with
    | none => (Except.error "invalid key bytes", data_node :: rest)
    | some keyFr =>
      match try_from_bytes data_node with
      | none => (Except.error "invalid data node bytes", data_node :: rest)
      | some dataFr =>
        let out := butterflyEncDecGo o config window_index replica_id
          layer_index layer_in op (node_index + 1) rest
        (out.1, natToLe 32 (op keyFr dataFr) :: out.2)

/-- `butterfly_encode_decode_layer`: a butterfly layer which additionally
    encodes or decodes the data in place using `op`. -/
def butterfly_encode_decode_layer (o : Oracle) (config : Config)
    (window_index : Nat) (replica_id : List Nat) (layer_index : Nat)
    (layer_in data : List Nat) (op : Nat → Nat → Nat) :
    Except String Unit × List Nat :=
  if layer_in.length ≠ data.length then
    (Except.error "layer_in and data must of the same size", data)
  else if layer_in.length ≠ config.window_size then
    (Except.error "layer_in must be of size window_size", data)
  else if layer_index ≠ config.num_expander_layers + config.num_butterfly_layers then
    (Except.error "encoding must be on the last layer", data)
  else
    let out := butterflyEncDecGo o config window_index replica_id layer_index
      layer_in op 0 (chunks32 data)
    (out.1, out.2.flatten)

/-- `butterfly_encode_layer`. -/
def butterfly_encode_layer (o : Oracle) (config : Config) (window_index : Nat)
    (replica_id : List Nat) (layer_index : Nat) (layer_in data : List Nat) :
    Except String Unit × List Nat :=
  butterfly_encode_decode_layer o config window_index replica_id layer_index
    layer_in data Encode.encode

/-- `butterfly_decode_layer`. -/
def butterfly_decode_layer (o : Oracle) (config : Config) (window_index : Nat)
    (replica_id : List Nat) (layer_index : Nat) (layer_in data : List Nat) :
    Except String Unit × List Nat :=
  butterfly_encode_decode_layer o config window_index replica_id layer_index
    layer_in data Encode.decode

/-- Propagate a layer call's result (`.context(..)?` in the source). -/
def runStep (r : Except String Unit × List Nat) : Except String (List Nat) :=
  match r with
  | (Except.ok _, buf) => Except.ok buf
  | (Except.error e, _) => Except.error e

/-- Steps 1–3 of both `encode_with_trees` and `decode`, which are verbatim
    identical in the source: construct the mask layer into `previous_layer`,
    then the expander layers (`layer_index` in `2..=num_expander_layers`) and
    the butterfly layers (`layer_index` in
    `(1 + num_expander_layers)..num_layers`), swapping `previous_layer` and
    `current_layer` after every layer. Returns the final `previous_layer`,
    the key layer consumed by the encode/decode step 4. -/
def keyLayers (o : Oracle) (config : Config) (window_index : Nat)
    (replica_id : List Nat) : Except String (List Nat) := do
  let zeros := List.replicate config.window_size 0
  let previous_layer ← runStep (mask_layer o config window_index replica_id zeros)
  let pc ← (List.range' 2 (config.num_expander_layers - 1)).foldlM
    (fun (pc : List Nat × List Nat) layer_index => do
      let cur ← runStep (expander_layer o config window_index replica_id
        layer_index pc.1 pc.2)
      pure (cur, pc.1)) (previous_layer, zeros)
  let pc ← (List.range' (1 + config.num_expander_layers)
      (config.num_layers - (1 + config.num_expander_layers))).foldlM
    (fun (pc : List Nat × List Nat) layer_index => do
      let cur ← runStep (butterfly_layer o config window_index replica_id
        layer_index pc.1 pc.2)
      pure (cur, pc.1)) pc
  pure pc.1

/-- The in-place data transformation of `encode_with_trees` (steps 1–4).
    The per-layer merkle trees only read the layer buffers and never write
    `data`, so the tree construction (disk stores) is not modelled; the
    returned buffer is the encoded `data`. -/
def encode_with_trees (o : Oracle) (config : Config) (window_index : Nat)
    (replica_id : List Nat) (data : List Nat) : Except String (List Nat) := do
  let previous_layer ← keyLayers o config window_index replica_id
  runStep (butterfly_encode_layer o config window_index replica_id
    config.num_layers previous_layer data)

/-- `decode`: reconstruct the key layers (identically to the encode path)
    and decode `encoded_data` in place with the butterfly decode layer. -/
def decode (o : Oracle) (config : Config) (window_index : Nat)
    (replica_id : List Nat) (encoded_data : List Nat) :
    Except String (List Nat) := do
  let previous_layer ← keyLayers o config window_index replica_id
  runStep (butterfly_decode_layer o config window_index replica_id
    config.num_layers previous_layer encoded_data)

/-- A trivial oracle used to instantiate witnesses. -/
def trivialOracle : Oracle where
  sha_digest := fun _ => List.replicate 32 0
  batchHash := fun _ _ _ _ _ => List.replicate 32 0
  expanderParents := fun _ _ => []
  butterflyParents := fun _ _ _ => []

/-- A one-node-window config used to instantiate witnesses. -/
def tinyConfig : Config where
  k := 2
  num_nodes_window := 1
  degree_expander := 4
  degree_butterfly := 4
  num_expander_layers := 1
  num_butterfly_layers := 1
  sector_size := 256

/-- A small concrete config used to instantiate witnesses. -/
def sampleConfig : Config where
  k := 8
  num_nodes_window := 2
  degree_expander := 12
  degree_butterfly := 4
  num_expander_layers := 2
  num_butterfly_layers := 2
  sector_size := 2048

/-- A 32-byte canonical node: 32 valid bytes forming a field element. -/
def CanonNode (c : List Nat) : Prop :=
  c.length = 32 ∧ (∀ b ∈ c, b < 256) ∧ leToNat c < Fr_MODULUS

end Nse

/-! ## `storage-proofs/src/stacked/porep.rs`: extraction -/
namespace Stacked

/-- The part of `PublicParams` that `extract` consumes. Modelled from the
    spec: `window_size_nodes()` is the number of nodes per window. -/
structure PublicParams where
  window_size_nodes : Nat

/-- Modelled from the spec: `window_size_bytes() = window_size_nodes * NODE_SIZE`. -/
def PublicParams.window_size_bytes (pp : PublicParams) : Nat :=
  pp.window_size_nodes * NODE_SIZE

/-- `extract_all_windows` (its body is not under `src/`). Modelled from the
    spec: every window of the sector is decoded in place, window `i` by the
    single-window decoding at window index `i`; windows are independent. The
    single-window decoder (`extract_single_window`) is the abstract
    deterministic, length-preserving function `dw`. -/
def extract_all_windows (pp : PublicParams) (dw : Nat → List Nat → List Nat)
    (data : List Nat) : List Nat :=
  (((chunksP1 (pp.window_size_bytes - 1) data).enum).map
    (fun p => dw p.1 p.2)).flatten

/-- `extract_all`: copy the data and decode all windows in place. -/
def extract_all (pp : PublicParams) (dw : Nat → List Nat → List Nat)
    (data : List Nat) : List Nat :=
  extract_all_windows pp dw data

/-- `extract`: slice out the window containing `node`, decode only that
    window (`Self::extract_single_window`), and return the 32-byte node at
    the node's index inside the window. -/
def extract (pp : PublicParams) (dw : Nat → List Nat → List Nat)
    (data : List Nat) (node : Nat) : List Nat :=
  let window_start_index := node / pp.window_size_nodes
  let window_start := window_start_index * pp.window_size_bytes
  let window := listSlice data window_start pp.window_size_bytes
  let decoded := dw window_start_index window
  let node_window_index := node % pp.window_size_nodes
  listSlice decoded (node_window_index * NODE_SIZE) NODE_SIZE

end Stacked

/-! ## `filecoin-proofs/src/api.rs`: seal / verify_seal -/
namespace Api

/-- The data `seal` returns (commitments and proof bytes). -/
structure SealOutput where
  comm_r : List Nat
  comm_r_star : List Nat
  comm_d : List Nat
  proof : List Nat
deriving DecidableEq

/-- The post-proving tail of `seal` (from the piece-inclusion sanity check to
    the final `Ok`): `valid_pieces == false` returns an error; the
    `verify_seal(..)` call is only `.expect`ed — a panic on `Err`, modelled
    as an error result — and its `Ok` boolean is discarded before
    `Ok(SealOutput { .. })` is returned. `verify_result` is the value
    `verify_seal` returns on the freshly produced proof. -/
def sealTail (valid_pieces : Bool) (verify_result : Except String Bool)
    (out : SealOutput) : Except String SealOutput :=
  if !valid_pieces then
    Except.error "pip verification sanity check failed"
  else
    match verify_result with
    | Except.error _ =>
      Except.error "post-seal verification sanity check failed"
    | Except.ok _ => Except.ok out

end Api

/-! ## SDR labeling (`storage-proofs/porep/src/stacked/vanilla/create_label/multi.rs`) -/
namespace Sdr

/-- The parent-cache operations and layer passes, in program order. -/
inductive CacheEvent where
  | finishReset : CacheEvent
  | startReset : CacheEvent
  | createLayer : Nat → CacheEvent
  | readLayer : Nat → CacheEvent
deriving DecidableEq

/-- The parent-cache schedule of `create_labels_for_decoding`: for each
    `layer` in `1..=layers`, `finish_reset()` is called whenever
    `layers != 1` (the condition tests the total layer count, not the
    current layer), then the layer labels are created, then `start_reset()`
    is called when `layer != layers`. -/
def create_labels_for_decoding_trace (layers : Nat) : List CacheEvent :=
  (List.range layers).foldl (fun acc i =>
    let layer := i + 1
    acc ++ (if layers ≠ 1 then [CacheEvent.finishReset] else [])
        ++ [CacheEvent.createLayer layer]
        ++ (if layer ≠ layers then [CacheEvent.startReset] else [])) []

/-- The schedule of `create_labels_for_encoding`: identical, except a layer
    whose state is already generated is skipped entirely (its labels are
    read into `exp_labels` and the loop continues). -/
def create_labels_for_encoding_trace (layers : Nat) (generated : Nat → Bool) :
    List CacheEvent :=
  (List.range layers).foldl (fun acc i =>
    let layer := i + 1
    if generated layer then acc ++ [CacheEvent.readLayer layer]
    else acc ++ (if layers ≠ 1 then [CacheEvent.finishReset] else [])
        ++ [CacheEvent.createLayer layer]
        ++ (if layer ≠ layers then [CacheEvent.startReset] else [])) []

/-- `NODE_WORDS = NODE_SIZE / size_of::<u32>()`. -/
def NODE_WORDS : Nat := 8

/-- `drgraph::BASE_DEGREE`. -/
def BASE_DEGREE : Nat := 6

/-- `graph::EXP_DEGREE`. -/
def EXP_DEGREE : Nat := 8

/-- `graph::DEGREE = BASE_DEGREE + EXP_DEGREE`. -/
def DEGREE : Nat := 14

/-- `fill_buffer::MIN_BASE_PARENT_NODE`. -/
def MIN_BASE_PARENT_NODE : Nat := 2000

/-- The SHA-256 initial state words. -/
def SHA256_INITIAL_DIGEST : List Nat :=
  [0x6a09e667, 0xbb67ae85, 0x3c6ef372, 0xa54ff53a,
   0x510e527f, 0x9b05688c, 0x1f83d9ab, 0x5be0cd19]

/-- `utils.rs::BitMask` (not under `src/`). Modelled from the spec: one bit
    per base-parent position; `set i` ORs bit `i` in, `set_upto i` sets the
    mask to the low `i` bits (`(1 << i) - 1`, per the comment at its call
    site in `fill_buffer`), `get i` tests bit `i`. -/
structure BitMask where
  bits : Nat
deriving DecidableEq

def BitMask.set (m : BitMask) (i : Nat) : BitMask :=
  BitMask.mk (m.bits ||| (1 <<< i))

def BitMask.set_upto (_ : BitMask) (i : Nat) : BitMask :=
  BitMask.mk ((1 <<< i) - 1)

def BitMask.get (m : BitMask) (i : Nat) : Bool := m.bits.testBit i

/-- The 32 bytes of the 8-u32 node at word offset `off` of a u32 slab
    (the `as_byte_slice()` view of `slab[off..off + NODE_WORDS]`, words
    stored little-endian). -/
def slabNodeBytes (slab : List Nat) (off : Nat) : List Nat :=
  (((slab.drop off).take NODE_WORDS).map (natToLe 4)).flatten

/-- `utils.rs::prepare_block` (not under `src/`). Modelled from the spec and
    the source comment at node 0 ("`replica_id || cur_layer || 0`"): bytes
    0..64 of a slot are the replica id, `BE32(cur_layer)` and zero padding
    (the node index is stamped into bytes 36..44 later); bytes 64..128 hold
    the Merkle–Damgård padding of a one-block message (`0x80` and the
    512-bit length), used by the node-0 two-block hash. -/
def prepare_block (replica_id : List Nat) (layer : Nat) : List Nat :=
  replica_id.take 32 ++ beBytes 4 layer ++ List.replicate 28 0 ++
  [0x80] ++ List.replicate 61 0 ++ [0x02, 0x00]

/-- A freshly prepared ring-buffer slot: `prepare_block` output followed by
    the zeroed parent region (total `64 + 32 * DEGREE = 512` bytes). -/
def initialSlot (replica_id : List Nat) (layer : Nat) : List Nat :=
  prepare_block replica_id layer ++ List.replicate 384 0

/-- The 64-byte prefix block of node `v`: the prepared block's first 64
    bytes with `BE64(v)` stamped at bytes 36..44 (`fill_buffer`). -/
def sdrPrefixBlock (replica_id : List Nat) (layer v : Nat) : List Nat :=
  listWrite (replica_id.take 32 ++ beBytes 4 layer ++ List.replicate 28 0)
    36 (beBytes 8 v)

/-- `fill_buffer`: stamp the node index into the prefix block, run the first
    SHA-256 round into the node's 8 words of `layer_labels`, then prefill
    the base-parent blocks whose labels are already finalized — reading them
    from `layer_labels`, the slab of the layer being built — and mark the
    rest in `base_parent_missing` (parent 5, the preceding node, always);
    for nodes `≤ MIN_BASE_PARENT_NODE` mark all six instead and copy
    nothing. Expander parents (when `exp_labels` is present) are always
    copied from the previous layer's slab. Returns the slot buffer, the bit
    mask and the `layer_labels` slab. -/
def fill_buffer (compress : List Nat → List Nat → List Nat)
    (cur_node : Nat) (cur_consumer : Nat) (cur_parent : List Nat)
    (layer_labels : List Nat) (exp_labels : Option (List Nat))
    (buf : List Nat) (base_parent_missing : BitMask) :
    List Nat × BitMask × List Nat :=
  let buf1 := listWrite buf 36 (beBytes 8 cur_node)
  let labels1 := listWrite layer_labels (cur_node * NODE_WORDS)
    (compress SHA256_INITIAL_DIGEST (buf1.take 64))
  let st :=
    if MIN_BASE_PARENT_NODE < cur_node then
      (List.range (BASE_DEGREE - 1)).foldl
        (fun (st : List Nat × BitMask) k =>
          if cur_consumer ≤ cur_parent.getD k 0 then
            (st.1, st.2.set k)
          else
            (listWrite st.1 (64 + NODE_SIZE * k)
              (slabNodeBytes labels1 (cur_parent.getD k 0 * NODE_WORDS)),
              st.2))
        (buf1, base_parent_missing.set 5)
    else
      (buf1, base_parent_missing.set_upto BASE_DEGREE)
  let st2 :=
    match exp_labels with
    | some exp =>
      ((List.range' BASE_DEGREE (DEGREE - BASE_DEGREE)).foldl
        (fun b k =>
          listWrite b (64 + NODE_SIZE * k)
            (slabNodeBytes exp (cur_parent.getD k 0 * NODE_WORDS)))
        st.1, st.2)
    | none => st
  (st2.1, st2.2, labels1)

/-- The consumer's base-parent patch loop for one node
    (`create_layer_labels`, the `bpm.get(k)` loop): for every bit set in the
    slot's `base_parent_missing`, copy the 32-byte label at the cached
    parent index from `layer_labels` — the current layer's slab — into the
    slot. `parents` is the node's record in the parent cache. -/
def consumer_patch (buf : List Nat) (base_parent_missing : BitMask)
    (layer_labels : List Nat) (parents : List Nat) : List Nat :=
  (List.range BASE_DEGREE).foldl
    (fun b k =>
      if base_parent_missing.get k then
        listWrite b (64 + NODE_SIZE * k)
          (slabNodeBytes layer_labels (parents.getD k 0 * NODE_WORDS))
      else b) buf

/-- The padding the consumer stamps into the final partial block: `0x80`,
    zeroes, and the big-endian bit length `0x2700` (9984 bits). -/
def padTail : List Nat := [0x80] ++ List.replicate 29 0 ++ [0x27, 0]

/-- The 64-byte message blocks compressed for node `v ≥ 1`: the prefix block
    (absorbed by `fill_buffer`), then for layer 1 six rounds over the six
    base-parent blocks (`compress256!(.., &buf[64..], 3)` six times) and a
    final block holding the first base parent plus padding; for an interior
    layer two rounds over all fourteen parent blocks and a final five blocks
    holding nine parents plus padding. `pb` is the prefix block,
    `parentBytes` the slot's parent region `buf[64..]`. -/
def sdrNodeBlocks (layer : Nat) (pb parentBytes : List Nat) :
    List (List Nat) :=
  if layer = 1 then
    pb :: chunksP1 63 ((List.replicate 6 (parentBytes.take 192)).flatten ++
      parentBytes.take 32 ++ padTail)
  else
    pb :: chunksP1 63 (parentBytes.take 448 ++ parentBytes.take 448 ++
      parentBytes.take 288 ++ padTail)

/-- Node 0's special case: two blocks over the freshly prepared slot
    (`compress256!(cur_node_ptr, buf, 2)`). -/
def sdrNode0Blocks (replica_id : List Nat) (layer : Nat) : List (List Nat) :=
  chunksP1 63 (prepare_block replica_id layer)

/-- Fold the compression function over message blocks from the initial
    state: the raw SHA-256 digest words of the preimage. -/
def sdrNodeDigestWords (compress : List Nat → List Nat → List Nat)
    (blocks : List (List Nat)) : List Nat :=
  blocks.foldl compress SHA256_INITIAL_DIGEST

/-- Byte-swap a u32 (`x.to_be()` on a little-endian machine). -/
def byteswap32 (w : Nat) : Nat := leToNat (beBytes 4 w)

/-- The consumer's label finalization: byte-swap the 8 digest words
    (`x = x.to_be()`), then `cur_node_ptr[7] &= 0x3FFF_FFFF`. -/
def sdrFinalize (st : List Nat) : List Nat :=
  let sw := st.map byteswap32
  listWrite sw 7 [sw.getD 7 0 &&& 0x3FFFFFFF]

/-- The in-memory bytes of an 8-u32 label (words stored little-endian). -/
def wordsToLeBytes (ws : List Nat) : List Nat :=
  (ws.map (natToLe 4)).flatten

/-- A digest as bytes in the standard SHA-256 output order (words
    big-endian). -/
def wordsToBeBytes (ws : List Nat) : List Nat :=
  (ws.map (beBytes 4)).flatten

/-- What the source relies on of `sha2::compress256` / the `compress256!`
    macro: the state stays 8 u32 words. -/
def CompressGood (f : List Nat → List Nat → List Nat) : Prop :=
  ∀ st blk, (f st blk).length = 8 ∧ ∀ w ∈ f st blk, w < 2 ^ 32

/-- One node's finalized label (8 words) in the sequential semantics of
    `create_layer_labels`: node 0 hashes only the prepared slot; node `v ≥ 1`
    hashes its prefix block and its parent blocks — base parents from `acc`,
    the labels of this layer already produced, and (for layers above 1)
    expander parents from the previous layer's slab. -/
def sdrNodeLabel (compress : List Nat → List Nat → List Nat)
    (replica_id : List Nat) (layer : Nat) (expLabels : List (List Nat))
    (parentsOf : Nat → List Nat) (acc : List (List Nat)) (v : Nat) :
    List Nat :=
  if v = 0 then
    sdrFinalize (sdrNodeDigestWords compress (sdrNode0Blocks replica_id layer))
  else
    let parentBytes :=
      (((parentsOf v).take BASE_DEGREE).map
        (fun p => wordsToLeBytes (acc.getD p (List.replicate 8 0)))).flatten
      ++ (if layer = 1 then [] else
        ((((parentsOf v).drop BASE_DEGREE).take EXP_DEGREE).map
          (fun p =>
            wordsToLeBytes (expLabels.getD p (List.replicate 8 0)))).flatten)
    sdrFinalize (sdrNodeDigestWords compress
      (sdrNodeBlocks layer ( sdrPrefixBlock replica_id layer v) parentBytes))

/-- The sequential (single-consumer) semantics of `create_layer_labels`:
    the labels of one layer in node order. -/
def create_layer_labels (compress : List Nat → List Nat → List Nat)
    (replica_id : List Nat) (expLabels : List (List Nat))
    (parentsOf : Nat → List Nat) (num_nodes : Nat) (cur_layer : Nat) :
    List (List Nat) :=
  (List.range num_nodes).foldl
    (fun acc v =>
      acc ++ [sdrNodeLabel compress replica_id cur_layer expLabels
        parentsOf acc v]) []

/-- C4 sample: a compression stub. -/
def c4Compress : List Nat → List Nat → List Nat := fun _ _ => List.replicate 8 0

/-- C4 sample: the node's cached parent record (base parents 0–4 all ready,
    parent 5 and the expander parents arbitrary). -/
def c4Parents : List Nat := [0, 0, 0, 0, 0, 2000, 0, 0, 0, 0, 0, 0, 0, 0]

/-- C4 sample: the current layer's slab, whose node 0 is eight words of 1. -/
def c4Layer : List Nat := List.replicate 8 1

/-- C4 sample: the previous layer's slab, whose node 0 is eight words of 2. -/
def c4Exp : List Nat := List.replicate 8 2

/-- C4 sample: `fill_buffer` prefilling node 2001's slot with the consumer
    at node 1, so base parent 0 (index 0) is ready and copied. -/
def c4Fill : List Nat × BitMask × List Nat :=
  fill_buffer c4Compress 2001 1 c4Parents c4Layer (some c4Exp)
    (List.replicate 512 0) (BitMask.mk 0)

end Sdr

/-! ## Theorems -/

theorem length_natToLe (len n : Nat) : (natToLe len n).length = len := by
  induction len generalizing n with
  | zero => rfl
  | succ k ih => simp [natToLe, ih]

theorem length_beBytes (width n : Nat) : (beBytes width n).length = width := by
  simp [beBytes, length_natToLe]

theorem natToLe_lt_256 (len n : Nat) : ∀ b ∈ natToLe len n, b < 256 := by
  induction len generalizing n with
  | zero => intro b hb; simp [natToLe] at hb
  | succ k ih =>
    intro b hb
    simp only [natToLe, List.mem_cons] at hb
    rcases hb with h | h
    · omega
    · exact ih _ b h

theorem leToNat_natToLe (len n : Nat) : leToNat (natToLe len n) = n % 256 ^ len := by
  induction len generalizing n with
  | zero => simp [natToLe, leToNat, Nat.mod_one]
  | succ k ih =>
    show n % 256 + 256 * leToNat (natToLe k (n / 256)) = n % 256 ^ (k + 1)
    rw [ih, Nat.pow_succ, show (256 : Nat) ^ k * 256 = 256 * 256 ^ k by ring,
      Nat.mod_mul]

theorem natToLe_leToNat (l : List Nat) (hb : ∀ b ∈ l, b < 256) :
    natToLe l.length (leToNat l) = l := by
  induction l with
  | nil => rfl
  | cons b bs ih =>
    have hb0 : b < 256 := hb b (by simp)
    show (b + 256 * leToNat bs) % 256 :: natToLe bs.length ((b + 256 * leToNat bs) / 256)
      = b :: bs
    have h1 : (b + 256 * leToNat bs) % 256 = b := by omega
    have h2 : (b + 256 * leToNat bs) / 256 = leToNat bs := by omega
    rw [h1, h2, ih (fun x hx => hb x (by simp [hx]))]

theorem leToNat_lt (l : List Nat) (hb : ∀ b ∈ l, b < 256) :
    leToNat l < 256 ^ l.length := by
  induction l with
  | nil => simp [leToNat]
  | cons b bs ih =>
    have hb0 : b < 256 := hb b (by simp)
    have := ih (fun x hx => hb x (by simp [hx]))
    simp only [leToNat, List.length_cons, Nat.pow_succ]
    omega

theorem leToNat_append (a b : List Nat) :
    leToNat (a ++ b) = leToNat a + 256 ^ a.length * leToNat b := by
  induction a with
  | nil => simp [leToNat]
  | cons x xs ih =>
    rw [List.cons_append]
    show x + 256 * leToNat (xs ++ b) = _
    rw [ih]
    show _ = x + 256 * leToNat xs + 256 ^ (xs.length + 1) * leToNat b
    rw [Nat.pow_succ]
    ring

theorem take_append_length (a b : List Nat) : (a ++ b).take a.length = a := by
  induction a with
  | nil => simp
  | cons x xs ih => simp [ih]

theorem drop_append_length_add (a b : List Nat) (n : Nat) :
    (a ++ b).drop (a.length + n) = b.drop n := by
  induction a with
  | nil => simp
  | cons x xs ih => simpa [Nat.succ_add] using ih

/-- Writing at offset `a.length` replaces the bytes right after `a`. -/
theorem listWrite_mid (a b v : List Nat) :
    listWrite (a ++ b) a.length v = a ++ v ++ b.drop v.length := by
  simp [listWrite, take_append_length, drop_append_length_add]

theorem chunksFuel_congr (n : Nat) : ∀ (f₁ : Nat) (l : List Nat) (f₂ : Nat),
    l.length ≤ f₁ → l.length ≤ f₂ → chunksFuel n f₁ l = chunksFuel n f₂ l := by
  intro f₁
  induction f₁ with
  | zero =>
    intro l f₂ h₁ _
    cases l with
    | nil => cases f₂ <;> rfl
    | cons x rest => simp at h₁
  | succ f ih =>
    intro l f₂ h₁ h₂
    cases l with
    | nil => cases f₂ <;> rfl
    | cons x rest =>
      cases f₂ with
      | zero => simp at h₂
      | succ g =>
        simp only [List.length_cons] at h₁ h₂
        rw [chunksFuel, chunksFuel]
        congr 1
        refine ih _ _ ?_ ?_ <;>
          simp only [List.length_drop, List.length_cons] <;> omega

theorem chunksP1_nil (n : Nat) : chunksP1 n [] = [] := rfl

theorem chunksP1_cons (n : Nat) (x : Nat) (rest : List Nat) :
    chunksP1 n (x :: rest) =
      (x :: rest).take (n + 1) :: chunksP1 n ((x :: rest).drop (n + 1)) := by
  show chunksFuel n (rest.length + 1) (x :: rest) = _
  rw [chunksFuel]
  congr 1
  refine chunksFuel_congr n _ _ _ ?_ le_rfl
  simp only [List.length_drop, List.length_cons]
  omega

theorem chunksP1_flatten (n : Nat) (l : List Nat) : (chunksP1 n l).flatten = l := by
  suffices h : ∀ (fuel : Nat) (l : List Nat), l.length ≤ fuel →
      (chunksFuel n fuel l).flatten = l from h l.length l le_rfl
  intro fuel
  induction fuel with
  | zero =>
    intro l hl
    cases l with
    | nil => rfl
    | cons x rest => simp at hl
  | succ f ih =>
    intro l hl
    cases l with
    | nil => rfl
    | cons x rest =>
      simp only [List.length_cons] at hl
      rw [chunksFuel]
      simp only [List.flatten_cons]
      rw [ih _ (by simp only [List.length_drop, List.length_cons]; omega)]
      exact List.take_append_drop _ _

theorem chunksP1_length_mem (n : Nat) (l : List Nat) (m : Nat)
    (h : l.length = m * (n + 1)) : ∀ c ∈ chunksP1 n l, c.length = n + 1 := by
  suffices hs : ∀ (fuel : Nat) (l : List Nat) (m : Nat), l.length ≤ fuel →
      l.length = m * (n + 1) → ∀ c ∈ chunksFuel n fuel l, c.length = n + 1 from
    hs l.length l m le_rfl h
  intro fuel
  induction fuel with
  | zero =>
    intro l m hl _ c hc
    cases l with
    | nil => simp [chunksFuel] at hc
    | cons x rest => simp at hl
  | succ f ih =>
    intro l m hl hmul c hc
    cases l with
    | nil => simp [chunksFuel] at hc
    | cons x rest =>
      rw [chunksFuel] at hc
      simp only [List.length_cons] at hmul hl
      have hm : 0 < m := by
        by_contra hm
        simp only [Nat.not_lt, Nat.le_zero] at hm
        subst hm
        simp at hmul
      have hge : n + 1 ≤ m * (n + 1) := Nat.le_mul_of_pos_left _ hm
      rcases List.mem_cons.mp hc with rfl | hc
      · simp only [List.length_take, List.length_cons]
        omega
      · refine ih _ (m - 1) ?_ ?_ c hc
        · simp only [List.length_drop, List.length_cons]
          omega
        · simp only [List.length_drop, List.length_cons]
          have hpred : (m - 1) * (n + 1) = m * (n + 1) - (n + 1) := by
            cases m with
            | zero => omega
            | succ k => simp [Nat.succ_mul]
          omega

theorem chunksP1_of_flatten (n : Nat) (L : List (List Nat))
    (h : ∀ c ∈ L, c.length = n + 1) : chunksP1 n L.flatten = L := by
  induction L with
  | nil => rfl
  | cons c cs ih =>
    have hc : c.length = n + 1 := h c (by simp)
    have hne : c ++ cs.flatten ≠ [] := by
      intro habs
      have := congrArg List.length habs
      simp [hc] at this
    obtain ⟨y, ys, hys⟩ : ∃ y ys, c ++ cs.flatten = y :: ys := by
      cases hcs : c ++ cs.flatten with
      | nil => exact absurd hcs hne
      | cons y ys => exact ⟨y, ys, rfl⟩
    simp only [List.flatten_cons]
    rw [hys, chunksP1_cons, ← hys]
    rw [List.take_append_of_le_length (by omega), List.take_of_length_le (by omega),
      List.drop_append_of_le_length (by omega), List.drop_of_length_le (by omega),
      List.nil_append]
    rw [ih (fun d hd => h d (by simp [hd]))]

theorem length_flatten_const (f : Nat → List Nat) (n c : Nat)
    (h : ∀ i < n, (f i).length = c) :
    ((List.range n).map f).flatten.length = n * c := by
  induction n with
  | zero => simp
  | succ k ih =>
    rw [List.range_succ]
    simp only [List.map_append, List.flatten_append, List.length_append, List.map_cons,
      List.map_nil, List.flatten_cons, List.flatten_nil, List.append_nil]
    rw [ih (fun i hi => h i (by omega)), h k (by omega)]
    ring

/-- C5: `hash_prefix(l, v)` is the 4 big-endian bytes of `l`, the 8 big-endian
    bytes of `v`, then 20 zero bytes; in particular `hash_prefix 0 0` is 32
    zero bytes and `hash_prefix 1 6` is `[0,0,0,1, 0,0,0,0,0,0,0,6]` followed
    by 20 zero bytes. -/
theorem hashPrefixCorrect (l v : Nat) (hl : l < 2 ^ 32) (hv : v < 2 ^ 64) :
    hash_prefix l v = beBytes 4 l ++ beBytes 8 v ++ List.replicate 20 0 ∧
    ( hash_prefix l v).length = 32 ∧
    hash_prefix 0 0 = List.replicate 32 0 ∧
    hash_prefix 1 6 =
      [0, 0, 0, 1, 0, 0, 0, 0, 0, 0, 0, 6] ++ List.replicate 20 0 := by
  have h1 : listWrite (List.replicate 32 0) 0 (beBytes 4 l) =
      beBytes 4 l ++ List.replicate 28 0 := by
    have h := listWrite_mid ([] : List Nat) (List.replicate 32 0) (beBytes 4 l)
    simpa [length_beBytes, List.drop_replicate] using h
  have h2 : listWrite (beBytes 4 l ++ List.replicate 28 0) 4 (beBytes 8 v) =
      beBytes 4 l ++ (beBytes 8 v ++ List.replicate 20 0) := by
    have h := listWrite_mid (beBytes 4 l) (List.replicate 28 0) (beBytes 8 v)
    rw [length_beBytes] at h
    simpa [length_beBytes, List.drop_replicate] using h
  have hmain : hash_prefix l v = beBytes 4 l ++ beBytes 8 v ++ List.replicate 20 0 := by
    show listWrite (listWrite (List.replicate 32 0) 0 (beBytes 4 l)) 4 (beBytes 8 v) = _
    rw [h1, h2, List.append_assoc]
  refine ⟨hmain, ?_, by decide, by decide⟩
  rw [hmain]
  simp [length_beBytes]

/-- Witness for C5 at a concrete input. -/
theorem hashPrefixCorrectWitness :
    (5 : Nat) < 2 ^ 32 ∧ (7 : Nat) < 2 ^ 64 ∧
    hash_prefix 5 7 = beBytes 4 5 ++ beBytes 8 7 ++ List.replicate 20 0 := by
  refine ⟨by norm_num, by norm_num, ?_⟩
  exact (hashPrefixCorrect 5 7 (by norm_num) (by norm_num)).1

namespace Nse

/-- C10: `mask_layer`, `expander_layer` and `butterfly_layer` each return an
    error whenever the output buffer length differs from
    `config.window_size()`, and in that case the output buffer is left
    unchanged (the `ensure!` checks run before any write). -/
theorem nseLayerSizeMismatch (o : Oracle) (config : Config)
    (window_index : Nat) (replica_id : List Nat) (layer_index : Nat)
    (layer_in layer_out : List Nat)
    (hlen : layer_out.length ≠ config.window_size) :
    (∃ e, mask_layer o config window_index replica_id layer_out =
      (Except.error e, layer_out)) ∧
    (∃ e, expander_layer o config window_index replica_id layer_index
      layer_in layer_out = (Except.error e, layer_out)) ∧
    (∃ e, butterfly_layer o config window_index replica_id layer_index
      layer_in layer_out = (Except.error e, layer_out)) := by
  refine ⟨?_, ?_, ?_⟩
  · exact ⟨"layer_out must be of size window_size", by simp [mask_layer, hlen]⟩
  · by_cases hio : layer_in.length = layer_out.length
    · exact ⟨"layer_out must be of size window_size",
        by rw [expander_layer, if_neg (by omega), if_pos hlen]⟩
    · exact ⟨"layer_in and layer_out must of the same size",
        by rw [expander_layer, if_pos hio]⟩
  · by_cases hio : layer_in.length = layer_out.length
    · exact ⟨"layer_out must be of size window_size",
        by rw [butterfly_layer, if_neg (by omega), if_pos hlen]⟩
    · exact ⟨"layer_in and layer_out must of the same size",
        by rw [butterfly_layer, if_pos hio]⟩

theorem listWrite_length (l : List Nat) (start : Nat) (vals : List Nat)
    (h : start + vals.length ≤ l.length) :
    (listWrite l start vals).length = l.length := by
  simp only [listWrite, List.length_append, List.length_take, List.length_drop]
  omega

theorem flatten_length_const (L : List (List Nat)) (c : Nat)
    (h : ∀ x ∈ L, x.length = c) : L.flatten.length = c * L.length := by
  induction L with
  | nil => simp
  | cons x xs ih =>
    simp only [List.flatten_cons, List.length_append, List.length_cons,
      h x (by simp), ih (fun y hy => h y (by simp [hy]))]
    ring

theorem Fr_MODULUS_pos : 0 < Fr_MODULUS := by norm_num [Fr_MODULUS]

theorem Fr_MODULUS_lt : Fr_MODULUS < 256 ^ 32 := by norm_num [Fr_MODULUS]

theorem two_pow_254_lt_Fr : 256 ^ 31 * 64 < Fr_MODULUS := by norm_num [Fr_MODULUS]

theorem truncate_hash_shape (l : List Nat) (hl : l.length = 32) :
    truncate_hash l = l.take 31 ++ [l.getD 31 0 &&& 0x3F] := by
  simp only [truncate_hash, listWrite, List.length_cons, List.length_nil]
  rw [List.drop_of_length_le (by omega), List.append_nil]

/-- Truncating a 32-byte digest yields a canonical field element. -/
theorem truncate_canonical (l : List Nat) (hl : l.length = 32)
    (hb : ∀ b ∈ l, b < 256) :
    (truncate_hash l).length = 32 ∧ (∀ b ∈ truncate_hash l, b < 256) ∧
    leToNat (truncate_hash l) < Fr_MODULUS := by
  rw [truncate_hash_shape l hl]
  have hlast : l.getD 31 0 &&& 0x3F ≤ 63 := Nat.and_le_right
  have htlen : (l.take 31).length = 31 := by simp [hl]
  have htb : ∀ b ∈ l.take 31, b < 256 := fun b hbmem => hb b (List.mem_of_mem_take hbmem)
  refine ⟨by simp [htlen], ?_, ?_⟩
  · intro b hbmem
    rcases List.mem_append.mp hbmem with hmem | hmem
    · exact htb b hmem
    · simp only [List.mem_singleton] at hmem
      omega
  · rw [leToNat_append, htlen]
    have h1 : leToNat (l.take 31) < 256 ^ 31 := by
      have := leToNat_lt (l.take 31) htb
      rwa [htlen] at this
    have h2 : leToNat [l.getD 31 0 &&& 0x3F] ≤ 63 := by
      simp only [leToNat]
      omega
    calc leToNat (l.take 31) + 256 ^ 31 * leToNat [l.getD 31 0 &&& 0x3F]
        < 256 ^ 31 + 256 ^ 31 * 63 :=
          Nat.add_lt_add_of_lt_of_le h1 (Nat.mul_le_mul_left _ h2)
      _ = 256 ^ 31 * 64 := by ring
      _ < Fr_MODULUS := two_pow_254_lt_Fr

theorem try_from_bytes_some (b : List Nat) (h1 : b.length = 32)
    (h2 : leToNat b < Fr_MODULUS) : try_from_bytes b = some (leToNat b) := by
  simp [try_from_bytes, h1, h2]

/-- Field-level round trip: `decode(key, encode(key, data)) = data`. -/
theorem encode_decode_field (k d : Nat) (hd : d < Fr_MODULUS) :
    Encode.decode k (Encode.encode k d) = d := by
  unfold Encode.encode Encode.decode Fr_MODULUS
  unfold Fr_MODULUS at hd
  omega

/-- The encode loop succeeds on canonical nodes, produces canonical 32-byte
    nodes, and the decode loop run on its output (with the same key layer)
    restores the input chunk list. -/
theorem encDecGoRoundtrip (o : Oracle) (config : Config) (window_index : Nat)
    (replica_id : List Nat) (layer_index : Nat) (layer_in : List Nat)
    (hsha : ∀ m, (o.sha_digest m).length = 32 ∧ ∀ b ∈ o.sha_digest m, b < 256)
    (L : List (List Nat)) :
    ∀ start : Nat, (∀ c ∈ L, CanonNode c) →
    (butterflyEncDecGo o config window_index replica_id layer_index layer_in
        Encode.encode start L).1 = Except.ok () ∧
    (butterflyEncDecGo o config window_index replica_id layer_index layer_in
        Encode.encode start L).2.length = L.length ∧
    (∀ c ∈ (butterflyEncDecGo o config window_index replica_id layer_index
        layer_in Encode.encode start L).2, CanonNode c) ∧
    butterflyEncDecGo o config window_index replica_id layer_index layer_in
        Encode.decode start
        (butterflyEncDecGo o config window_index replica_id layer_index
          layer_in Encode.encode start L).2 = (Except.ok (), L) := by
  induction L with
  | nil =>
    intro start _
    exact ⟨rfl, rfl, by simp [butterflyEncDecGo], rfl⟩
  | cons d rest ih =>
    intro start h
    obtain ⟨hd1, hd2, hd3⟩ := h d (by simp)
    have hk : CanonNode (butterflyKey o config window_index replica_id
        layer_index layer_in start) := by
      have := truncate_canonical (o.sha_digest
        ( hash_prefix layer_index
            (window_index * config.num_nodes_window + start) ++ replica_id ++
          butterflyParentsBytes layer_in
            (o.butterflyParents config start layer_index)))
        (hsha _).1 (hsha _).2
      exact this
    set kv := leToNat (butterflyKey o config window_index replica_id
      layer_index layer_in start) with hkv
    have hkparse : try_from_bytes (butterflyKey o config window_index
        replica_id layer_index layer_in start) = some kv :=
      try_from_bytes_some _ hk.1 hk.2.2
    have hdparse : try_from_bytes d = some (leToNat d) :=
      try_from_bytes_some _ hd1 hd3
    obtain ⟨ih1, ih2, ih3, ih4⟩ := ih (start + 1) (fun c hc => h c (by simp [hc]))
    have hev : Encode.encode kv (leToNat d) < Fr_MODULUS :=
      Nat.mod_lt _ Fr_MODULUS_pos
    have hgo : butterflyEncDecGo o config window_index replica_id layer_index
        layer_in Encode.encode start (d :: rest) =
        ((butterflyEncDecGo o config window_index replica_id layer_index
            layer_in Encode.encode (start + 1) rest).1,
          natToLe 32 (Encode.encode kv (leToNat d)) ::
          (butterflyEncDecGo o config window_index replica_id layer_index
            layer_in Encode.encode (start + 1) rest).2) := by
      simp only [butterflyEncDecGo, hkparse, hdparse]
    have hCanonEnc : CanonNode (natToLe 32 (Encode.encode kv (leToNat d))) := by
      refine ⟨length_natToLe _ _, natToLe_lt_256 _ _, ?_⟩
      rw [leToNat_natToLe]
      calc Encode.encode kv (leToNat d) % 256 ^ 32
          ≤ Encode.encode kv (leToNat d) := Nat.mod_le _ _
        _ < Fr_MODULUS := hev
    have hEncHeadVal : leToNat (natToLe 32 (Encode.encode kv (leToNat d))) =
        Encode.encode kv (leToNat d) := by
      rw [leToNat_natToLe]
      exact Nat.mod_eq_of_lt (lt_trans hev Fr_MODULUS_lt)
    have hEncHeadParse : try_from_bytes (natToLe 32 (Encode.encode kv (leToNat d)))
        = some (Encode.encode kv (leToNat d)) := by
      rw [try_from_bytes_some _ (length_natToLe _ _) (by rw [hEncHeadVal]; exact hev),
        hEncHeadVal]
    have hdec : butterflyEncDecGo o config window_index replica_id layer_index
        layer_in Encode.decode start
        (natToLe 32 (Encode.encode kv (leToNat d)) ::
          (butterflyEncDecGo o config window_index replica_id layer_index
            layer_in Encode.encode (start + 1) rest).2) =
        ((Except.ok () : Except String Unit), d :: rest) := by
      simp only [butterflyEncDecGo, hkparse, hEncHeadParse, ih4]
      rw [encode_decode_field kv (leToNat d) hd3]
      have : natToLe 32 (leToNat d) = d := by
        have := natToLe_leToNat d hd2
        rwa [hd1] at this
      rw [this]
    refine ⟨?_, ?_, ?_, ?_⟩
    · rw [hgo]; exact ih1
    · rw [hgo]; simp [ih2]
    · rw [hgo]
      intro c hc
      rcases List.mem_cons.mp hc with rfl | hc
      · exact hCanonEnc
      · exact ih3 c hc
    · rw [hgo]
      exact hdec

theorem except_bind_ok {α β : Type} (a : α) (f : α → Except String β) :
    (Except.ok a >>= f) = f a := rfl

theorem foldlMExceptOk {α β : Type} (step : β → α → Except String β)
    (inv : β → Prop) (L : List α) (b : β)
    (h : ∀ x ∈ L, ∀ pc, inv pc → ∃ pc', step pc x = Except.ok pc' ∧ inv pc')
    (hb : inv b) : ∃ bf, L.foldlM step b = Except.ok bf ∧ inv bf := by
  induction L generalizing b with
  | nil => exact ⟨b, rfl, hb⟩
  | cons x xs ih =>
    obtain ⟨pc', hstep, hinv⟩ := h x (by simp) b hb
    obtain ⟨bf, hfold, hbf⟩ := ih pc'
      (fun y hy pc hpc => h y (List.mem_cons_of_mem _ hy) pc hpc) hinv
    refine ⟨bf, ?_, hbf⟩
    rw [List.foldlM_cons, hstep]
    exact hfold

theorem mask_layer_ok (o : Oracle) (config : Config) (window_index : Nat)
    (replica_id : List Nat) (hgood : OracleGood o) (layer_out : List Nat)
    (hlen : layer_out.length = config.window_size) :
    ∃ M, mask_layer o config window_index replica_id layer_out =
      (Except.ok (), M) ∧ M.length = config.window_size := by
  rw [mask_layer, if_pos hlen]
  refine ⟨_, rfl, ?_⟩
  rw [length_flatten_const _ config.num_nodes_window 32 ?_]
  · rfl
  · intro i _
    exact (truncate_canonical _ (hgood.1 _).1 (hgood.1 _).2).1

theorem expander_layer_ok (o : Oracle) (config : Config) (window_index : Nat)
    (replica_id : List Nat) (layer_index : Nat) (layer_in layer_out : List Nat)
    (hgood : OracleGood o)
    (h1 : layer_in.length = config.window_size)
    (h2 : layer_out.length = config.window_size)
    (hli : 1 < layer_index ∧ layer_index ≤ config.num_expander_layers) :
    ∃ C, expander_layer o config window_index replica_id layer_index
      layer_in layer_out = (Except.ok (), C) ∧
      C.length = config.window_size := by
  rw [expander_layer, if_neg (by omega), if_neg (by omega),
    if_neg (not_not_intro hli)]
  refine ⟨_, rfl, ?_⟩
  rw [length_flatten_const _ config.num_nodes_window 32 ?_]
  · rfl
  · intro i _
    exact hgood.2 _ _ _ _ _

theorem butterfly_layer_ok (o : Oracle) (config : Config) (window_index : Nat)
    (replica_id : List Nat) (layer_index : Nat) (layer_in layer_out : List Nat)
    (hgood : OracleGood o)
    (h1 : layer_in.length = config.window_size)
    (h2 : layer_out.length = config.window_size)
    (hli : config.num_expander_layers < layer_index ∧
      layer_index < config.num_expander_layers + config.num_butterfly_layers) :
    ∃ C, butterfly_layer o config window_index replica_id layer_index
      layer_in layer_out = (Except.ok (), C) ∧
      C.length = config.window_size := by
  rw [butterfly_layer, if_neg (by omega), if_neg (by omega),
    if_neg (not_not_intro hli)]
  refine ⟨_, rfl, ?_⟩
  rw [length_flatten_const _ config.num_nodes_window 32 ?_]
  · rfl
  · intro i _
    exact (truncate_canonical _ (hgood.1 _).1 (hgood.1 _).2).1

/-- Under a well-formed oracle the key-layer pipeline always succeeds and
    yields a window-sized buffer. -/
theorem keyLayersOk (o : Oracle) (config : Config) (window_index : Nat)
    (replica_id : List Nat) (hgood : OracleGood o) :
    ∃ K, keyLayers o config window_index replica_id = Except.ok K ∧
      K.length = config.window_size := by
  obtain ⟨M, hM, hMlen⟩ := mask_layer_ok o config window_index replica_id hgood
    (List.replicate config.window_size 0) (by simp)
  obtain ⟨pc1, hfold1, hpc1⟩ := foldlMExceptOk
    (fun (pc : List Nat × List Nat) layer_index => do
      let cur ← runStep (expander_layer o config window_index replica_id
        layer_index pc.1 pc.2)
      pure (cur, pc.1))
    (fun pc => pc.1.length = config.window_size ∧
      pc.2.length = config.window_size)
    (List.range' 2 (config.num_expander_layers - 1))
    (M, List.replicate config.window_size 0)
    (by
      intro x hx pc hpc
      have hxr := List.mem_range'_1.mp hx
      obtain ⟨C, hC, hClen⟩ := expander_layer_ok o config window_index
        replica_id x pc.1 pc.2 hgood hpc.1 hpc.2 (by omega)
      refine ⟨(C, pc.1), ?_, hClen, hpc.1⟩
      show (do
        let cur ← runStep (expander_layer o config window_index replica_id
          x pc.1 pc.2)
        pure (cur, pc.1)) = Except.ok (C, pc.1)
      rw [hC]
      rfl)
    ⟨hMlen, by simp⟩
  obtain ⟨pc2, hfold2, hpc2⟩ := foldlMExceptOk
    (fun (pc : List Nat × List Nat) layer_index => do
      let cur ← runStep (butterfly_layer o config window_index replica_id
        layer_index pc.1 pc.2)
      pure (cur, pc.1))
    (fun pc => pc.1.length = config.window_size ∧
      pc.2.length = config.window_size)
    (List.range' (1 + config.num_expander_layers)
      (config.num_layers - (1 + config.num_expander_layers)))
    pc1
    (by
      intro x hx pc hpc
      have hxr := List.mem_range'_1.mp hx
      have hnl : config.num_layers = config.num_expander_layers +
          config.num_butterfly_layers := rfl
      obtain ⟨C, hC, hClen⟩ := butterfly_layer_ok o config window_index
        replica_id x pc.1 pc.2 hgood hpc.1 hpc.2 (by omega)
      refine ⟨(C, pc.1), ?_, hClen, hpc.1⟩
      show (do
        let cur ← runStep (butterfly_layer o config window_index replica_id
          x pc.1 pc.2)
        pure (cur, pc.1)) = Except.ok (C, pc.1)
      rw [hC]
      rfl)
    hpc1
  refine ⟨pc2.1, ?_, hpc2.1⟩
  show (do
    let previous_layer ← runStep (mask_layer o config window_index replica_id
      (List.replicate config.window_size 0))
    let pc ← (List.range' 2 (config.num_expander_layers - 1)).foldlM
      (fun (pc : List Nat × List Nat) layer_index => do
        let cur ← runStep (expander_layer o config window_index replica_id
          layer_index pc.1 pc.2)
        pure (cur, pc.1)) (previous_layer, List.replicate config.window_size 0)
    let pc ← (List.range' (1 + config.num_expander_layers)
        (config.num_layers - (1 + config.num_expander_layers))).foldlM
      (fun (pc : List Nat × List Nat) layer_index => do
        let cur ← runStep (butterfly_layer o config window_index replica_id
          layer_index pc.1 pc.2)
        pure (cur, pc.1)) pc
    pure pc.1) = Except.ok pc2.1
  rw [hM]
  rw [show runStep ((Except.ok (), M) : Except String Unit × List Nat)
    = Except.ok M from rfl]
  rw [except_bind_ok, hfold1, except_bind_ok, hfold2, except_bind_ok]
  rfl

/-- C1: for every NSE `Config`, window index, replica id and data buffer of
    exactly `window_size` bytes whose 32-byte nodes are canonical field
    elements, running `decode` (same config, window index and replica id) on
    the buffer `encode_with_trees` encoded in place restores the original
    data byte for byte. -/
theorem nseDecodeEncodeRoundtrip (o : Oracle) (config : Config)
    (window_index : Nat) (replica_id : List Nat) (data encoded : List Nat)
    (hgood : OracleGood o)
    (hlen : data.length = config.window_size)
    (hnodes : ∀ c ∈ chunks32 data, (∀ b ∈ c, b < 256) ∧ leToNat c < Fr_MODULUS)
    (henc : encode_with_trees o config window_index replica_id data =
      Except.ok encoded) :
    decode o config window_index replica_id encoded = Except.ok data := by
  obtain ⟨K, hK, hKlen⟩ := keyLayersOk o config window_index replica_id hgood
  have hchunklen : ∀ c ∈ chunks32 data, c.length = 32 :=
    chunksP1_length_mem 31 data config.num_nodes_window (by rw [hlen]; rfl)
  have hcanon : ∀ c ∈ chunks32 data, CanonNode c := fun c hc =>
    ⟨hchunklen c hc, (hnodes c hc).1, (hnodes c hc).2⟩
  obtain ⟨hgo1, hgo2, hgo3, hgo4⟩ := encDecGoRoundtrip o config window_index
    replica_id config.num_layers K hgood.1 (chunks32 data) 0 hcanon
  have hdataflat : (chunks32 data).flatten = data := chunksP1_flatten 31 data
  have hdatalen : data.length = 32 * (chunks32 data).length := by
    conv_lhs => rw [← hdataflat]
    exact flatten_length_const _ 32 hchunklen
  have hKd : K.length = data.length := by rw [hKlen, hlen]
  have hencval : butterfly_encode_layer o config window_index replica_id
      config.num_layers K data =
      (Except.ok (), (butterflyEncDecGo o config window_index replica_id
        config.num_layers K Encode.encode 0 (chunks32 data)).2.flatten) := by
    unfold butterfly_encode_layer butterfly_encode_decode_layer
    rw [if_neg (by omega), if_neg (by omega),
      if_neg (by simp [Config.num_layers])]
    simp only [hgo1]
  have hencstep : encode_with_trees o config window_index replica_id data =
      Except.ok ((butterflyEncDecGo o config window_index replica_id
        config.num_layers K Encode.encode 0 (chunks32 data)).2.flatten) := by
    unfold encode_with_trees
    rw [hK, except_bind_ok, hencval]
    rfl
  rw [hencstep] at henc
  have henc2 : (butterflyEncDecGo o config window_index replica_id
      config.num_layers K Encode.encode 0 (chunks32 data)).2.flatten =
      encoded := Except.ok.inj henc
  subst henc2
  have hencchunks : ∀ c ∈ (butterflyEncDecGo o config window_index replica_id
      config.num_layers K Encode.encode 0 (chunks32 data)).2, c.length = 32 :=
    fun c hc => (hgo3 c hc).1
  have henclen : (butterflyEncDecGo o config window_index replica_id
      config.num_layers K Encode.encode 0 (chunks32 data)).2.flatten.length
      = data.length := by
    rw [flatten_length_const _ 32 hencchunks, hgo2, hdatalen]
  show (keyLayers o config window_index replica_id >>= fun previous_layer =>
    runStep (butterfly_decode_layer o config window_index replica_id
      config.num_layers previous_layer
      ((butterflyEncDecGo o config window_index replica_id
        config.num_layers K Encode.encode 0 (chunks32 data)).2.flatten)))
    = Except.ok data
  rw [hK, except_bind_ok]
  unfold butterfly_decode_layer butterfly_encode_decode_layer
  rw [if_neg (by omega), if_neg (by omega),
    if_neg (by simp [Config.num_layers])]
  rw [show chunks32 ((butterflyEncDecGo o config window_index replica_id
      config.num_layers K Encode.encode 0 (chunks32 data)).2.flatten) =
    (butterflyEncDecGo o config window_index replica_id
      config.num_layers K Encode.encode 0 (chunks32 data)).2 from
    chunksP1_of_flatten 31 _ hencchunks]
  simp only [hgo4]
  rw [hdataflat]
  rfl

/-- Witness for C1: the all-zero 32-byte window round-trips concretely. -/
theorem nseDecodeEncodeRoundtripWitness :
    OracleGood trivialOracle ∧
    (List.replicate 32 0).length = tinyConfig.window_size ∧
    decode trivialOracle tinyConfig 0 (List.replicate 32 0)
      (List.replicate 32 0) = Except.ok (List.replicate 32 0) := by
  have hgood : OracleGood trivialOracle := by
    constructor
    · intro m
      refine ⟨rfl, ?_⟩
      intro b hb
      simp only [trivialOracle, List.mem_replicate] at hb
      omega
    · intro k d p ps li
      rfl
  refine ⟨hgood, by decide, ?_⟩
  exact nseDecodeEncodeRoundtrip trivialOracle tinyConfig 0
    (List.replicate 32 0) (List.replicate 32 0) (List.replicate 32 0)
    hgood (by decide) (by decide) (by decide)

/-- Witness for C10: an empty output buffer for a 64-byte window. -/
theorem nseLayerSizeMismatchWitness :
    ([] : List Nat).length ≠ sampleConfig.window_size ∧
    (∃ e, mask_layer trivialOracle sampleConfig 0 (List.replicate 32 0) [] =
      (Except.error e, [])) := by
  have h := nseLayerSizeMismatch trivialOracle sampleConfig 0
    (List.replicate 32 0) 2 (List.replicate 64 1) [] (by decide)
  exact ⟨by decide, h.1⟩

end Nse

namespace Stacked

/-- Slicing a flatten of equal-length chunks at a chunk-relative offset. -/
theorem slice_flatten_chunk (w : Nat) :
    ∀ (L : List (List Nat)) (i s c : Nat), (∀ x ∈ L, x.length = w) →
    i < L.length → s + c ≤ w →
    listSlice L.flatten (i * w + s) c = listSlice (L.getD i []) s c := by
  intro L
  induction L with
  | nil =>
    intro i s c _ hi _
    simp at hi
  | cons x xs ih =>
    intro i s c hlen hi hsc
    have hx : x.length = w := hlen x (by simp)
    cases i with
    | zero =>
      rw [List.getD_cons_zero]
      show listSlice (x ++ xs.flatten) (0 * w + s) c = listSlice x s c
      unfold listSlice
      rw [Nat.zero_mul, Nat.zero_add,
        List.drop_append_of_le_length (by omega),
        List.take_append_of_le_length (by simp only [List.length_drop]; omega)]
    | succ j =>
      rw [List.getD_cons_succ]
      have hstep : listSlice ((x :: xs).flatten) ((j + 1) * w + s) c =
          listSlice xs.flatten (j * w + s) c := by
        show listSlice (x ++ xs.flatten) ((j + 1) * w + s) c = _
        unfold listSlice
        have heq : (j + 1) * w + s = x.length + (j * w + s) := by
          rw [hx]; ring
        rw [heq, drop_append_length_add]
      rw [hstep]
      exact ih j s c (fun y hy => hlen y (by simp [hy]))
        (by simpa using hi) hsc

theorem chunksP1_count (n : Nat) (l : List Nat) (m : Nat)
    (h : l.length = m * (n + 1)) : (chunksP1 n l).length = m := by
  have hmem := chunksP1_length_mem n l m h
  have hflat := chunksP1_flatten n l
  have hlen : l.length = (n + 1) * (chunksP1 n l).length := by
    conv_lhs => rw [← hflat]
    exact Nse.flatten_length_const _ (n + 1) hmem
  have hmm : (n + 1) * m = (n + 1) * (chunksP1 n l).length := by
    rw [Nat.mul_comm (n + 1) m, ← h]
    exact hlen
  exact (Nat.eq_of_mul_eq_mul_left (by omega) hmm).symm

theorem chunksP1_getD (n : Nat) (l : List Nat) (m i : Nat)
    (h : l.length = m * (n + 1)) (hi : i < m) :
    (chunksP1 n l).getD i [] = listSlice l (i * (n + 1)) (n + 1) := by
  have hmem := chunksP1_length_mem n l m h
  have hcnt := chunksP1_count n l m h
  have hflat := chunksP1_flatten n l
  have hslice := slice_flatten_chunk (n + 1) (chunksP1 n l) i 0 (n + 1)
    hmem (by omega) (by omega)
  rw [hflat] at hslice
  rw [Nat.add_zero] at hslice
  rw [hslice]
  unfold listSlice
  rw [List.drop_zero]
  have hmemD : (chunksP1 n l).getD i [] ∈ chunksP1 n l := by
    rw [List.getD_eq_getElem?_getD]
    cases hg : (chunksP1 n l)[i]? with
    | none =>
      have := List.getElem?_eq_none_iff.mp hg
      omega
    | some v =>
      exact List.getElem?_mem hg
  rw [List.take_of_length_le (le_of_eq (hmem _ hmemD))]

/-- C6: `extract` returns exactly the 32-byte slice
    `[node*32, (node+1)*32)` of `extract_all` on the same inputs, and its
    result depends only on the bytes of the window containing `node`. -/
theorem extractMatchesExtractAll (pp : PublicParams)
    (dw : Nat → List Nat → List Nat) (data : List Nat)
    (node num_windows : Nat)
    (hwsn : 0 < pp.window_size_nodes)
    (hdw : ∀ i w, (dw i w).length = w.length)
    (hdata : data.length = num_windows * pp.window_size_bytes)
    (hnode : node < num_windows * pp.window_size_nodes) :
    extract pp dw data node =
      listSlice (extract_all pp dw data) (node * NODE_SIZE) NODE_SIZE ∧
    (∀ data2 : List Nat,
      listSlice data2 ((node / pp.window_size_nodes) * pp.window_size_bytes)
          pp.window_size_bytes =
        listSlice data ((node / pp.window_size_nodes) * pp.window_size_bytes)
          pp.window_size_bytes →
      extract pp dw data2 node = extract pp dw data node) := by
  have hwsb : pp.window_size_bytes - 1 + 1 = pp.window_size_bytes := by
    have : 0 < pp.window_size_bytes :=
      Nat.mul_pos hwsn (by norm_num [NODE_SIZE])
    omega
  have hdata' : data.length = num_windows * (pp.window_size_bytes - 1 + 1) := by
    rw [hwsb]; exact hdata
  constructor
  · -- main slice equality
    have hmem0 := chunksP1_length_mem (pp.window_size_bytes - 1) data
      num_windows hdata'
    have hmem : ∀ x ∈ chunksP1 (pp.window_size_bytes - 1) data,
        x.length = pp.window_size_bytes := by
      intro x hx
      rw [← hwsb]
      exact hmem0 x hx
    have hcnt := chunksP1_count (pp.window_size_bytes - 1) data
      num_windows hdata'
    set W := chunksP1 (pp.window_size_bytes - 1) data with hW
    set wsi := node / pp.window_size_nodes with hwsi
    set nwi := node % pp.window_size_nodes with hnwi
    have hwsilt : wsi < num_windows := by
      rw [hwsi]
      exact Nat.div_lt_of_lt_mul (by rw [Nat.mul_comm] at hnode; exact hnode)
    have hnwilt : nwi < pp.window_size_nodes := Nat.mod_lt _ hwsn
    -- lengths of the mapped list
    have hmaplen : ∀ x ∈ (W.enum.map (fun p => dw p.1 p.2)),
        x.length = pp.window_size_bytes := by
      intro x hx
      obtain ⟨p, hp, rfl⟩ := List.mem_map.mp hx
      obtain ⟨i, c⟩ := p
      have hc : W[i]? = some c := List.mk_mem_enum_iff_getElem?.mp hp
      rw [hdw]
      exact hmem c (List.getElem?_mem hc)
    have hmapcnt : (W.enum.map (fun p => dw p.1 p.2)).length = num_windows := by
      simp [List.length_map, List.enum_length, hcnt]
    -- decompose node * 32
    have hsplit : node * NODE_SIZE =
        wsi * pp.window_size_bytes + nwi * NODE_SIZE := by
      have hn : node = wsi * pp.window_size_nodes + nwi := by
        rw [hwsi, hnwi, Nat.mul_comm]
        exact (Nat.div_add_mod node pp.window_size_nodes).symm
      rw [hn]
      unfold PublicParams.window_size_bytes
      ring
    have hsc : nwi * NODE_SIZE + NODE_SIZE ≤ pp.window_size_bytes := by
      unfold PublicParams.window_size_bytes
      have : nwi + 1 ≤ pp.window_size_nodes := hnwilt
      calc nwi * NODE_SIZE + NODE_SIZE = (nwi + 1) * NODE_SIZE := by ring
        _ ≤ pp.window_size_nodes * NODE_SIZE :=
          Nat.mul_le_mul_right _ this
    have hflatslice := slice_flatten_chunk pp.window_size_bytes
      (W.enum.map (fun p => dw p.1 p.2)) wsi (nwi * NODE_SIZE) NODE_SIZE
      hmaplen (by omega) hsc
    -- the selected element of the mapped list
    have hWsome : W[wsi]? = some (W.getD wsi []) := by
      rw [List.getD_eq_getElem?_getD]
      cases hW2 : W[wsi]? with
      | none =>
        have := List.getElem?_eq_none_iff.mp hW2
        omega
      | some v => rfl
    have hget : (W.enum.map (fun p => dw p.1 p.2)).getD wsi [] =
        dw wsi (W.getD wsi []) := by
      rw [List.getD_eq_getElem?_getD, List.getElem?_map, List.getElem?_enum,
        hWsome]
      rfl
    have hWget : W.getD wsi [] =
        listSlice data (wsi * pp.window_size_bytes) pp.window_size_bytes := by
      have h := chunksP1_getD (pp.window_size_bytes - 1) data num_windows wsi
        hdata' hwsilt
      rw [hwsb] at h
      exact h
    show listSlice
      (dw wsi (listSlice data (wsi * pp.window_size_bytes)
        pp.window_size_bytes)) (nwi * NODE_SIZE) NODE_SIZE =
      listSlice (extract_all pp dw data) (node * NODE_SIZE) NODE_SIZE
    rw [hsplit]
    show _ = listSlice ((W.enum.map (fun p => dw p.1 p.2)).flatten)
      (wsi * pp.window_size_bytes + nwi * NODE_SIZE) NODE_SIZE
    rw [hflatslice, hget, hWget]
  · intro data2 hsame
    show listSlice (dw (node / pp.window_size_nodes)
        (listSlice data2 ((node / pp.window_size_nodes) * pp.window_size_bytes)
          pp.window_size_bytes))
        ((node % pp.window_size_nodes) * NODE_SIZE) NODE_SIZE
      = extract pp dw data node
    rw [hsame]
    rfl

/-- Witness for C6 at a concrete two-window sector. -/
theorem extractMatchesExtractAllWitness :
    0 < (PublicParams.mk 1).window_size_nodes ∧
    extract (PublicParams.mk 1) (fun _ w => w) (List.range 64) 1 =
      listSlice (extract_all (PublicParams.mk 1) (fun _ w => w)
        (List.range 64)) (1 * NODE_SIZE) NODE_SIZE :=
  ⟨by decide,
    (extractMatchesExtractAll (PublicParams.mk 1) (fun _ w => w)
      (List.range 64) 1 2 (by decide) (fun i w => rfl) (by decide)
      (by decide)).1⟩

end Stacked

namespace Api

/-- C7 (code bug): when `verify_seal` returns `Ok(false)` — the proof does
    not verify, but no error occurred — `seal` still returns
    `Ok(SealOutput)`, because `.expect` only catches `Err` and the boolean
    verification result is discarded. This contradicts the source's own
    comment ("it is never correct to return a proof which does not verify")
    and the claim. -/
theorem sealReturnsUnverifiedProof :
    sealTail true (Except.ok false) (SealOutput.mk [] [] [] []) =
      Except.ok (SealOutput.mk [] [] [] []) := rfl

end Api

namespace Sdr

theorem beBytes_mem_lt (width w : Nat) : ∀ b ∈ beBytes width w, b < 256 := by
  intro b hb
  unfold beBytes at hb
  exact natToLe_lt_256 _ _ b (List.mem_reverse.mp hb)

theorem natToLe_byteswap (w : Nat) : natToLe 4 (byteswap32 w) = beBytes 4 w := by
  unfold byteswap32
  have h := natToLe_leToNat (beBytes 4 w) (beBytes_mem_lt 4 w)
  rwa [length_beBytes] at h

theorem land_mask30 (x : Nat) : x &&& 0x3FFFFFFF = x % 1073741824 := by
  have h := Nat.and_pow_two_sub_one_eq_mod x 30
  norm_num at h
  exact h

theorem land_mask6 (x : Nat) : x &&& 0x3F = x % 64 := by
  have h := Nat.and_pow_two_sub_one_eq_mod x 6
  norm_num at h
  exact h

theorem byteswap_mask_bytes (A B C D : Nat) (hA : A < 256) (hB : B < 256)
    (hC : C < 256) (hD : D < 256) :
    natToLe 4 (leToNat [A, B, C, D] % 1073741824) = [A, B, C, D % 64] := by
  have hX : leToNat [A, B, C, D] = A + 256 * B + 65536 * C + 16777216 * D := by
    simp [leToNat]
    ring
  rw [hX]
  show (A + 256 * B + 65536 * C + 16777216 * D) % 1073741824 % 256 ::
    ((A + 256 * B + 65536 * C + 16777216 * D) % 1073741824 / 256 % 256 ::
    ((A + 256 * B + 65536 * C + 16777216 * D) % 1073741824 / 256 / 256 % 256 ::
    ((A + 256 * B + 65536 * C + 16777216 * D) % 1073741824 / 256 / 256 / 256 % 256 ::
    []))) = [A, B, C, D % 64]
  have h1 : (A + 256 * B + 65536 * C + 16777216 * D) % 1073741824 % 256 = A := by
    omega
  have h2 : (A + 256 * B + 65536 * C + 16777216 * D) % 1073741824 / 256 % 256
      = B := by omega
  have h3 : (A + 256 * B + 65536 * C + 16777216 * D) % 1073741824 / 256 / 256
      % 256 = C := by omega
  have h4 : (A + 256 * B + 65536 * C + 16777216 * D) % 1073741824 / 256 / 256
      / 256 % 256 = D % 64 := by omega
  rw [h1, h2, h3, h4]

theorem be4_expand (w : Nat) : beBytes 4 w =
    [w / 256 / 256 / 256 % 256, w / 256 / 256 % 256, w / 256 % 256, w % 256] := by
  have h : natToLe 4 w =
      [w % 256, w / 256 % 256, w / 256 / 256 % 256, w / 256 / 256 / 256 % 256] :=
    rfl
  unfold beBytes
  rw [h]
  rfl

theorem finalize_last_word (w : Nat) :
    natToLe 4 (byteswap32 w &&& 0x3FFFFFFF) =
      (beBytes 4 w).take 3 ++ [w % 256 % 64] := by
  rw [land_mask30]
  unfold byteswap32
  rw [be4_expand w]
  rw [byteswap_mask_bytes _ _ _ _ (by omega) (by omega) (by omega) (by omega)]
  rfl

theorem le_bytes31_lt_Fr (front : List Nat) (last : Nat)
    (hf : front.length = 31) (hb : ∀ b ∈ front, b < 256) (hl : last < 64) :
    leToNat (front ++ [last]) < Nse.Fr_MODULUS := by
  rw [leToNat_append, hf]
  have h1 : leToNat front < 256 ^ 31 := by
    have h := leToNat_lt front hb
    rwa [hf] at h
  have h2 : leToNat [last] ≤ 63 := by
    simp only [leToNat]
    omega
  calc leToNat front + 256 ^ 31 * leToNat [last]
      < 256 ^ 31 + 256 ^ 31 * 63 :=
        Nat.add_lt_add_of_lt_of_le h1 (Nat.mul_le_mul_left _ h2)
    _ = 256 ^ 31 * 64 := by ring
    _ < Nse.Fr_MODULUS := Nse.two_pow_254_lt_Fr

/-- The finalized label bytes are the big-endian digest bytes with the top
    two bits of the last byte cleared; the last byte is below 64 and the
    32-byte value is a canonical field element. -/
theorem sdrFinalizeBytes (st : List Nat) (hlen : st.length = 8) :
    wordsToLeBytes (sdrFinalize st) =
      (wordsToBeBytes st).take 31 ++
        [(wordsToBeBytes st).getD 31 0 &&& 0x3F] ∧
    (∃ front lastByte, wordsToLeBytes (sdrFinalize st) = front ++ [lastByte] ∧
      front.length = 31 ∧ lastByte < 64) ∧
    leToNat (wordsToLeBytes (sdrFinalize st)) < Nse.Fr_MODULUS := by
  obtain ⟨w0, w1, w2, w3, w4, w5, w6, w7, rfl⟩ :
      ∃ w0 w1 w2 w3 w4 w5 w6 w7, st = [w0, w1, w2, w3, w4, w5, w6, w7] := by
    rcases st with _ | ⟨w0, st⟩; · simp at hlen
    rcases st with _ | ⟨w1, st⟩; · simp at hlen
    rcases st with _ | ⟨w2, st⟩; · simp at hlen
    rcases st with _ | ⟨w3, st⟩; · simp at hlen
    rcases st with _ | ⟨w4, st⟩; · simp at hlen
    rcases st with _ | ⟨w5, st⟩; · simp at hlen
    rcases st with _ | ⟨w6, st⟩; · simp at hlen
    rcases st with _ | ⟨w7, st⟩; · simp at hlen
    rcases st with _ | ⟨w8, st⟩
    · exact ⟨w0, w1, w2, w3, w4, w5, w6, w7, rfl⟩
    · simp at hlen
  obtain ⟨t, ht, htlen⟩ :
      ∃ t, beBytes 4 w7 = t ++ [w7 % 256] ∧ t.length = 3 := by
    refine ⟨(beBytes 4 w7).take 3, ?_, ?_⟩
    · rw [be4_expand w7]
      rfl
    · rw [be4_expand w7]
      rfl
  have hFlen : (beBytes 4 w0 ++ (beBytes 4 w1 ++ (beBytes 4 w2 ++
      (beBytes 4 w3 ++ (beBytes 4 w4 ++ (beBytes 4 w5 ++
      (beBytes 4 w6 ++ t))))))).length = 31 := by
    simp [length_beBytes, htlen]
  have hFb : ∀ b ∈ beBytes 4 w0 ++ (beBytes 4 w1 ++ (beBytes 4 w2 ++
      (beBytes 4 w3 ++ (beBytes 4 w4 ++ (beBytes 4 w5 ++
      (beBytes 4 w6 ++ t)))))), b < 256 := by
    intro b hb
    simp only [List.mem_append] at hb
    rcases hb with hb | hb | hb | hb | hb | hb | hb | hb
    · exact beBytes_mem_lt 4 w0 b hb
    · exact beBytes_mem_lt 4 w1 b hb
    · exact beBytes_mem_lt 4 w2 b hb
    · exact beBytes_mem_lt 4 w3 b hb
    · exact beBytes_mem_lt 4 w4 b hb
    · exact beBytes_mem_lt 4 w5 b hb
    · exact beBytes_mem_lt 4 w6 b hb
    · have : b ∈ beBytes 4 w7 := by
        rw [ht]
        exact List.mem_append_left _ hb
      exact beBytes_mem_lt 4 w7 b this
  have hBE : wordsToBeBytes [w0, w1, w2, w3, w4, w5, w6, w7] =
      (beBytes 4 w0 ++ (beBytes 4 w1 ++ (beBytes 4 w2 ++ (beBytes 4 w3 ++
        (beBytes 4 w4 ++ (beBytes 4 w5 ++ (beBytes 4 w6 ++ t))))))) ++
      [w7 % 256] := by
    show beBytes 4 w0 ++ (beBytes 4 w1 ++ (beBytes 4 w2 ++ (beBytes 4 w3 ++
      (beBytes 4 w4 ++ (beBytes 4 w5 ++ (beBytes 4 w6 ++
        (beBytes 4 w7 ++ []))))))) = _
    rw [ht]
    simp [List.append_assoc]
  have hLE : wordsToLeBytes (sdrFinalize [w0, w1, w2, w3, w4, w5, w6, w7]) =
      (beBytes 4 w0 ++ (beBytes 4 w1 ++ (beBytes 4 w2 ++ (beBytes 4 w3 ++
        (beBytes 4 w4 ++ (beBytes 4 w5 ++ (beBytes 4 w6 ++ t))))))) ++
      [w7 % 256 % 64] := by
    show natToLe 4 (byteswap32 w0) ++ (natToLe 4 (byteswap32 w1) ++
      (natToLe 4 (byteswap32 w2) ++ (natToLe 4 (byteswap32 w3) ++
      (natToLe 4 (byteswap32 w4) ++ (natToLe 4 (byteswap32 w5) ++
      (natToLe 4 (byteswap32 w6) ++
      (natToLe 4 (byteswap32 w7 &&& 0x3FFFFFFF) ++ []))))))) = _
    rw [natToLe_byteswap w0, natToLe_byteswap w1, natToLe_byteswap w2,
      natToLe_byteswap w3, natToLe_byteswap w4, natToLe_byteswap w5,
      natToLe_byteswap w6, finalize_last_word w7, ht]
    simp [List.append_assoc]
    rw [← htlen]
    exact take_append_length _ _
  refine ⟨?_, ⟨_, _, hLE, hFlen, by omega⟩, ?_⟩
  · rw [hLE, hBE]
    rw [show ((beBytes 4 w0 ++ (beBytes 4 w1 ++ (beBytes 4 w2 ++
        (beBytes 4 w3 ++ (beBytes 4 w4 ++ (beBytes 4 w5 ++
        (beBytes 4 w6 ++ t))))))) ++ [w7 % 256]).take 31 =
        beBytes 4 w0 ++ (beBytes 4 w1 ++ (beBytes 4 w2 ++ (beBytes 4 w3 ++
        (beBytes 4 w4 ++ (beBytes 4 w5 ++ (beBytes 4 w6 ++ t)))))) from by
      rw [← hFlen]
      exact take_append_length _ _]
    have hgd : ((beBytes 4 w0 ++ (beBytes 4 w1 ++ (beBytes 4 w2 ++
        (beBytes 4 w3 ++ (beBytes 4 w4 ++ (beBytes 4 w5 ++
        (beBytes 4 w6 ++ t))))))) ++ [w7 % 256]).getD 31 0 = w7 % 256 := by
      rw [List.getD_eq_getElem?_getD, ← hFlen,
        List.getElem?_append_right le_rfl]
      simp
    rw [hgd, land_mask6]
  · rw [hLE]
    exact le_bytes31_lt_Fr _ _ hFlen hFb (by omega)

theorem digestWordsLength (compress : List Nat → List Nat → List Nat)
    (hgood : CompressGood compress) (blocks : List (List Nat)) :
    (sdrNodeDigestWords compress blocks).length = 8 := by
  unfold sdrNodeDigestWords
  suffices h : ∀ st : List Nat, st.length = 8 →
      (blocks.foldl compress st).length = 8 from h _ (by decide)
  induction blocks with
  | nil => intro st hst; exact hst
  | cons b bs ih =>
    intro st _
    exact ih (compress st b) (hgood st b).1

/-- Every label the pipeline appends is a finalized digest. -/
theorem create_layer_labels_shape (compress : List Nat → List Nat → List Nat)
    (replica_id : List Nat) (expLabels : List (List Nat))
    (parentsOf : Nat → List Nat) (num_nodes cur_layer : Nat) :
    ∀ lab ∈ create_layer_labels compress replica_id expLabels parentsOf
      num_nodes cur_layer,
    ∃ blocks, lab = sdrFinalize (sdrNodeDigestWords compress blocks) := by
  unfold create_layer_labels
  suffices h : ∀ (L : List Nat) (acc : List (List Nat)),
      (∀ l ∈ acc, ∃ blocks,
        l = sdrFinalize (sdrNodeDigestWords compress blocks)) →
      ∀ lab ∈ L.foldl (fun acc v => acc ++
        [sdrNodeLabel compress replica_id cur_layer expLabels parentsOf
          acc v]) acc,
      ∃ blocks, lab = sdrFinalize (sdrNodeDigestWords compress blocks) from
    h _ [] (by simp)
  intro L
  induction L with
  | nil =>
    intro acc hacc lab hlab
    exact hacc lab hlab
  | cons x xs ih =>
    intro acc hacc lab hlab
    refine ih _ ?_ lab hlab
    intro l hl
    rcases List.mem_append.mp hl with hl | hl
    · exact hacc l hl
    · simp only [List.mem_singleton] at hl
      subst hl
      unfold sdrNodeLabel
      by_cases hx : x = 0
      · rw [if_pos hx]
        exact ⟨_, rfl⟩
      · rw [if_neg hx]
        exact ⟨_, rfl⟩

/-- C3: every finalized label produced by the labeling pipeline — each node
    of every SDR layer and each node of the NSE mask layer — equals the
    32-byte SHA-256 digest of its preimage with the top two bits of the last
    byte cleared; hence the first two bits of every finalized label are zero
    and each label is a canonical BLS12-381 scalar. -/
theorem labelsTruncated
    (compress : List Nat → List Nat → List Nat) (hgood : CompressGood compress)
    (replica_id : List Nat) (expLabels : List (List Nat))
    (parentsOf : Nat → List Nat) (num_nodes cur_layer : Nat)
    (o : Nse.Oracle) (config : Nse.Config) (window_index : Nat)
    (rid2 layer_out : List Nat)
    (hsha : ∀ m, (o.sha_digest m).length = 32 ∧ ∀ b ∈ o.sha_digest m, b < 256)
    (hlen : layer_out.length = config.window_size) :
    (∀ lab ∈ create_layer_labels compress replica_id expLabels parentsOf
        num_nodes cur_layer,
      ∃ blocks,
        lab = sdrFinalize (sdrNodeDigestWords compress blocks) ∧
        wordsToLeBytes lab =
          (wordsToBeBytes (sdrNodeDigestWords compress blocks)).take 31 ++
          [(wordsToBeBytes (sdrNodeDigestWords compress blocks)).getD 31 0
            &&& 0x3F] ∧
        (∃ front lastByte, wordsToLeBytes lab = front ++ [lastByte] ∧
          front.length = 31 ∧ lastByte < 64) ∧
        leToNat (wordsToLeBytes lab) < Nse.Fr_MODULUS) ∧
    (∀ c ∈ chunks32 ((Nse.mask_layer o config window_index rid2 layer_out).2),
      (∃ m, c = Nse.truncate_hash (o.sha_digest m)) ∧
      (∃ front lastByte, c = front ++ [lastByte] ∧
        front.length = 31 ∧ lastByte < 64) ∧
      leToNat c < Nse.Fr_MODULUS) := by
  constructor
  · intro lab hlab
    obtain ⟨blocks, rfl⟩ := create_layer_labels_shape compress replica_id
      expLabels parentsOf num_nodes cur_layer lab hlab
    obtain ⟨h1, h2, h3⟩ := sdrFinalizeBytes _
      (digestWordsLength compress hgood blocks)
    exact ⟨blocks, rfl, h1, h2, h3⟩
  · intro c hc
    rw [Nse.mask_layer, if_pos hlen] at hc
    have h32 : ∀ x ∈ (List.range config.num_nodes_window).map
        (fun node_index =>
          Nse.truncate_hash (o.sha_digest
            ( hash_prefix 1 (window_index * config.num_nodes_window +
              node_index) ++ rid2))), x.length = 31 + 1 := by
      intro x hx
      obtain ⟨i, _, rfl⟩ := List.mem_map.mp hx
      exact (Nse.truncate_canonical _ (hsha _).1 (hsha _).2).1
    rw [show chunks32 (((List.range config.num_nodes_window).map
        (fun node_index =>
          Nse.truncate_hash (o.sha_digest
            ( hash_prefix 1 (window_index * config.num_nodes_window +
              node_index) ++ rid2)))).flatten) =
        (List.range config.num_nodes_window).map
        (fun node_index =>
          Nse.truncate_hash (o.sha_digest
            ( hash_prefix 1 (window_index * config.num_nodes_window +
              node_index) ++ rid2))) from
      chunksP1_of_flatten 31 _ h32] at hc
    obtain ⟨i, _, rfl⟩ := List.mem_map.mp hc
    have hshape := Nse.truncate_hash_shape _ (hsha
      ( hash_prefix 1 (window_index * config.num_nodes_window + i) ++
        rid2)).1
    refine ⟨⟨_, rfl⟩, ?_, ?_⟩
    · refine ⟨_, _, hshape, ?_, ?_⟩
      · simp [(hsha _).1]
      · have := Nat.and_le_right (n := (o.sha_digest
          ( hash_prefix 1 (window_index * config.num_nodes_window + i) ++
            rid2)).getD 31 0) (m := 0x3F)
        omega
    · exact (Nse.truncate_canonical _ (hsha _).1 (hsha _).2).2.2

set_option maxRecDepth 100000

theorem hashPrefixLength (l v : Nat) : ( hash_prefix l v).length = 32 := by
  show (listWrite (listWrite (List.replicate 32 0) 0 (beBytes 4 l)) 4
    (beBytes 8 v)).length = 32
  rw [Nse.listWrite_length, Nse.listWrite_length] <;>
    simp [length_beBytes, listWrite, length_natToLe]

/-- C2 counterexample: in the SDR pipeline a layer-1 node's SHA-256 preimage
    is NOT only the 64-byte prefix hashed in a single compression — with the
    base-parent region filled with the byte 7, the consumer compresses 20
    blocks, among them a block consisting entirely of parent bytes. -/
theorem sdrLayer1PreimageHasParents :
    (sdrNodeBlocks 1 ( sdrPrefixBlock (List.replicate 32 0) 1 1)
      (List.replicate 192 7)).length = 20 ∧
    sdrNodeBlocks 1 ( sdrPrefixBlock (List.replicate 32 0) 1 1)
      (List.replicate 192 7) ≠
      [ sdrPrefixBlock (List.replicate 32 0) 1 1] ∧
    List.replicate 64 7 ∈
      sdrNodeBlocks 1 ( sdrPrefixBlock (List.replicate 32 0) 1 1)
        (List.replicate 192 7) := by
  refine ⟨by decide, by decide, by decide⟩

/-- C2 amended: only the NSE mask layer hashes parentless preimages — each
    node is `truncate_hash(Sha256::digest([hash_prefix(1, v), replica_id]))`
    over exactly 64 bytes. In the SDR pipeline a layer-1 preimage is the
    prefix block followed by six rounds over all six base-parent blocks and
    a final block holding the first base parent plus padding, 20 blocks in
    all. -/
theorem maskAndSdrLayer1Preimages
    (o : Nse.Oracle) (config : Nse.Config) (window_index : Nat)
    (replica_id layer_out : List Nat)
    (hsha : ∀ m, (o.sha_digest m).length = 32 ∧ ∀ b ∈ o.sha_digest m, b < 256)
    (hlen : layer_out.length = config.window_size)
    (hrid : replica_id.length = 32)
    (pb parentBytes : List Nat) (hpbytes : parentBytes.length = 192) :
    (∀ c ∈ chunks32
        ((Nse.mask_layer o config window_index replica_id layer_out).2),
      ∃ i, i < config.num_nodes_window ∧
        c = Nse.truncate_hash (o.sha_digest
          ( hash_prefix 1 (window_index * config.num_nodes_window + i) ++
            replica_id)) ∧
        ( hash_prefix 1 (window_index * config.num_nodes_window + i) ++
          replica_id).length = 64) ∧
    ((sdrNodeBlocks 1 pb parentBytes).flatten =
      pb ++ ((List.replicate 6 parentBytes).flatten ++
        (parentBytes.take 32 ++ padTail)) ∧
      (sdrNodeBlocks 1 pb parentBytes).length = 20) := by
  constructor
  · intro c hc
    rw [Nse.mask_layer, if_pos hlen] at hc
    have h32 : ∀ x ∈ (List.range config.num_nodes_window).map
        (fun node_index =>
          Nse.truncate_hash (o.sha_digest
            ( hash_prefix 1 (window_index * config.num_nodes_window +
              node_index) ++ replica_id))), x.length = 31 + 1 := by
      intro x hx
      obtain ⟨i, _, rfl⟩ := List.mem_map.mp hx
      exact (Nse.truncate_canonical _ (hsha _).1 (hsha _).2).1
    rw [show chunks32 (((List.range config.num_nodes_window).map
        (fun node_index =>
          Nse.truncate_hash (o.sha_digest
            ( hash_prefix 1 (window_index * config.num_nodes_window +
              node_index) ++ replica_id)))).flatten) =
        (List.range config.num_nodes_window).map
        (fun node_index =>
          Nse.truncate_hash (o.sha_digest
            ( hash_prefix 1 (window_index * config.num_nodes_window +
              node_index) ++ replica_id))) from
      chunksP1_of_flatten 31 _ h32] at hc
    obtain ⟨i, hi, rfl⟩ := List.mem_map.mp hc
    refine ⟨i, List.mem_range.mp hi, rfl, ?_⟩
    simp [hashPrefixLength, hrid]
  · have htake : parentBytes.take 192 = parentBytes :=
      List.take_of_length_le (by omega)
    constructor
    · rw [sdrNodeBlocks, if_pos rfl]
      rw [List.flatten_cons, chunksP1_flatten, htake, List.append_assoc]
    · rw [sdrNodeBlocks, if_pos rfl, htake]
      have hXlen : ((List.replicate 6 parentBytes).flatten ++
          (parentBytes.take 32 ++ padTail)).length = 19 * 64 := by
        show (parentBytes ++ (parentBytes ++ (parentBytes ++ (parentBytes ++
          (parentBytes ++ (parentBytes ++ []))))) ++
          (parentBytes.take 32 ++ padTail)).length = 19 * 64
        simp [hpbytes, padTail]
      rw [List.length_cons]
      rw [show ((List.replicate 6 parentBytes).flatten ++
          parentBytes.take 32 ++ padTail) =
          ((List.replicate 6 parentBytes).flatten ++
          (parentBytes.take 32 ++ padTail)) from by
        rw [List.append_assoc]]
      rw [Stacked.chunksP1_count 63 _ 19 hXlen]

/-- Witness for C2 (amended) at a concrete slot. -/
theorem maskAndSdrLayer1PreimagesWitness :
    (sdrNodeBlocks 1 (List.replicate 64 0) (List.replicate 192 0)).flatten =
      List.replicate 64 0 ++
        ((List.replicate 6 (List.replicate 192 0)).flatten ++
          ((List.replicate 192 0).take 32 ++ padTail)) ∧
    (sdrNodeBlocks 1 (List.replicate 64 0) (List.replicate 192 0)).length
      = 20 := by
  have hsha : ∀ m, ((Nse.trivialOracle).sha_digest m).length = 32 ∧
      ∀ b ∈ (Nse.trivialOracle).sha_digest m, b < 256 := by
    intro m
    refine ⟨rfl, ?_⟩
    intro b hb
    simp only [Nse.trivialOracle, List.mem_replicate] at hb
    omega
  exact (maskAndSdrLayer1Preimages Nse.trivialOracle Nse.tinyConfig 0
    (List.replicate 32 0) (List.replicate 32 0) hsha (by decide) (by decide)
    (List.replicate 64 0) (List.replicate 192 0) (by decide)).2

/-- Witness for C3: the single label of a one-node layer-1 pipeline with a
    constant compression function is canonical. -/
theorem labelsTruncatedWitness :
    ((create_layer_labels (fun _ _ => List.replicate 8 0)
        (List.replicate 32 0) [] (fun _ => []) 1 1).getD 0 []) ∈
      create_layer_labels (fun _ _ => List.replicate 8 0)
        (List.replicate 32 0) [] (fun _ => []) 1 1 ∧
    leToNat (wordsToLeBytes ((create_layer_labels
      (fun _ _ => List.replicate 8 0) (List.replicate 32 0) [] (fun _ => [])
      1 1).getD 0 [])) < Nse.Fr_MODULUS := by
  have hgood : CompressGood (fun _ _ => List.replicate 8 0) := by
    intro st blk
    refine ⟨rfl, ?_⟩
    intro w hw
    simp only [List.mem_replicate] at hw
    omega
  have hsha : ∀ m, ((Nse.trivialOracle).sha_digest m).length = 32 ∧
      ∀ b ∈ (Nse.trivialOracle).sha_digest m, b < 256 := by
    intro m
    refine ⟨rfl, ?_⟩
    intro b hb
    simp only [Nse.trivialOracle, List.mem_replicate] at hb
    omega
  have hmem : ((create_layer_labels (fun _ _ => List.replicate 8 0)
      (List.replicate 32 0) [] (fun _ => []) 1 1).getD 0 []) ∈
      create_layer_labels (fun _ _ => List.replicate 8 0)
        (List.replicate 32 0) [] (fun _ => []) 1 1 := by decide
  obtain ⟨blocks, _, _, _, hlt⟩ := (labelsTruncated
    (fun _ _ => List.replicate 8 0) hgood (List.replicate 32 0) []
    (fun _ => []) 1 1 Nse.trivialOracle Nse.tinyConfig 0 []
    (List.replicate 32 0) hsha (by decide)).1 _ hmem
  exact ⟨hmem, hlt⟩

/-- C8 (code bug): with `layers = 2` and nothing pre-generated, both label
    creation variants invoke `finish_reset` immediately before the layer-1
    pass — the guard is `layers != 1`, not `layer > 1` — contradicting the
    claim and the source's own comment ("the finish happens before each
    layer but the first"). -/
theorem finishResetBeforeLayer1 :
    create_labels_for_decoding_trace 2 =
      [CacheEvent.finishReset, CacheEvent.createLayer 1,
       CacheEvent.startReset, CacheEvent.finishReset,
       CacheEvent.createLayer 2] ∧
    create_labels_for_encoding_trace 2 (fun _ => false) =
      [CacheEvent.finishReset, CacheEvent.createLayer 1,
       CacheEvent.startReset, CacheEvent.finishReset,
       CacheEvent.createLayer 2] := by
  constructor <;> rfl

theorem length_le_listWrite (l : List Nat) (s : Nat) (v : List Nat) :
    l.length ≤ (listWrite l s v).length := by
  simp only [listWrite, List.length_append, List.length_take, List.length_drop]
  omega

theorem listSlice_getElem (l : List Nat) (s n i : Nat) :
    (listSlice l s n)[i]? = if i < n then l[s + i]? else none := by
  unfold listSlice
  by_cases h : i < n
  · rw [List.getElem?_take, if_pos h, if_pos h, List.getElem?_drop]
  · rw [List.getElem?_take, if_neg h, if_neg h]

theorem listWrite_getElem (l : List Nat) (s : Nat) (v : List Nat) (i : Nat)
    (hb : s + v.length ≤ l.length) :
    (listWrite l s v)[i]? =
      if i < s then l[i]?
      else if i < s + v.length then v[i - s]?
      else l[i]? := by
  unfold listWrite
  have hts : (l.take s).length = s := by
    rw [List.length_take]; omega
  have htv : (l.take s ++ v).length = s + v.length := by
    rw [List.length_append, hts]
  by_cases h1 : i < s
  · rw [if_pos h1,
      List.getElem?_append_left (show i < (l.take s ++ v).length by omega),
      List.getElem?_append_left (show i < (l.take s).length by omega),
      List.getElem?_take, if_pos h1]
  · rw [if_neg h1]
    by_cases h2 : i < s + v.length
    · rw [if_pos h2,
        List.getElem?_append_left (show i < (l.take s ++ v).length by omega),
        List.getElem?_append_right (show (l.take s).length ≤ i by omega), hts]
    · rw [if_neg h2,
        List.getElem?_append_right (show (l.take s ++ v).length ≤ i by omega),
        htv, List.getElem?_drop,
        show s + v.length + (i - (s + v.length)) = i from by omega]

theorem listSlice_len (l : List Nat) (s n : Nat) (h : s + n ≤ l.length) :
    (listSlice l s n).length = n := by
  unfold listSlice
  rw [List.length_take, List.length_drop]
  omega

theorem listSlice_listWrite_self (l : List Nat) (s : Nat) (v : List Nat)
    (hb : s + v.length ≤ l.length) :
    listSlice (listWrite l s v) s v.length = v := by
  refine List.ext_getElem?_iff.mpr (fun i => ?_)
  rw [listSlice_getElem]
  by_cases h : i < v.length
  · rw [if_pos h, listWrite_getElem _ _ _ _ hb, if_neg (by omega),
      if_pos (by omega), show s + i - s = i from by omega]
  · rw [if_neg h]
    exact (List.getElem?_eq_none_iff.mpr (by omega)).symm

theorem listSlice_listWrite_disjoint (l : List Nat) (ws : Nat) (v : List Nat)
    (s n : Nat) (hb : ws + v.length ≤ l.length)
    (hdisj : ws + v.length ≤ s ∨ s + n ≤ ws) :
    listSlice (listWrite l ws v) s n = listSlice l s n := by
  refine List.ext_getElem?_iff.mpr (fun i => ?_)
  rw [listSlice_getElem, listSlice_getElem]
  by_cases h : i < n
  · rw [if_pos h, if_pos h, listWrite_getElem _ _ _ _ hb]
    rcases hdisj with hd | hd
    · rw [if_neg (by omega), if_neg (by omega)]
    · rw [if_pos (by omega)]
  · rw [if_neg h, if_neg h]

theorem slabNodeBytes_len_le (slab : List Nat) (off : Nat) :
    (slabNodeBytes slab off).length ≤ 32 := by
  unfold slabNodeBytes
  rw [Nse.flatten_length_const (((slab.drop off).take NODE_WORDS).map (natToLe 4)) 4
    (by
      intro x hx
      obtain ⟨w, _, rfl⟩ := List.mem_map.mp hx
      exact length_natToLe 4 w)]
  rw [List.length_map, List.length_take]
  simp only [NODE_WORDS]
  omega

theorem slabNodeBytes_len (slab : List Nat) (off : Nat)
    (h : off + NODE_WORDS ≤ slab.length) :
    (slabNodeBytes slab off).length = NODE_SIZE := by
  unfold slabNodeBytes
  rw [Nse.flatten_length_const (((slab.drop off).take NODE_WORDS).map (natToLe 4)) 4
    (by
      intro x hx
      obtain ⟨w, _, rfl⟩ := List.mem_map.mp hx
      exact length_natToLe 4 w)]
  rw [List.length_map, List.length_take, List.length_drop]
  simp only [NODE_WORDS] at h ⊢
  show 4 * min 8 (slab.length - off) = 32
  omega

theorem bitmask_get_mk_zero (i : Nat) : (BitMask.mk 0).get i = false :=
  Nat.zero_testBit i

theorem bitmask_get_set_self (m : BitMask) (i : Nat) :
    (m.set i).get i = true := by
  simp [BitMask.set, BitMask.get, Nat.testBit_or, Nat.one_shiftLeft,
    Nat.testBit_two_pow_self]

theorem bitmask_get_set_other (m : BitMask) (i j : Nat) (h : j ≠ i) :
    (m.set i).get j = m.get j := by
  simp [BitMask.set, BitMask.get, Nat.testBit_or, Nat.one_shiftLeft,
    Nat.testBit_two_pow_of_ne (Ne.symm h)]

theorem bitmask_get_set_upto (m : BitMask) (n i : Nat) :
    (m.set_upto n).get i = decide (i < n) := by
  simp only [BitMask.set_upto, BitMask.get, Nat.one_shiftLeft]
  exact Nat.testBit_two_pow_sub_one n i

/-- The buffer component of the producer's base-parent fold does not depend
    on the mask component of the state. -/
theorem baseFold_fst_spec (cc : Nat) (p slab : List Nat) :
    ∀ (L : List Nat) (b0 : List Nat) (m0 : BitMask),
    (L.foldl (fun (st : List Nat × BitMask) k =>
      if cc ≤ p.getD k 0 then (st.1, st.2.set k)
      else (listWrite st.1 (64 + NODE_SIZE * k)
        (slabNodeBytes slab (p.getD k 0 * NODE_WORDS)), st.2)) (b0, m0)).1 =
    L.foldl (fun b k => if cc ≤ p.getD k 0 then b
      else listWrite b (64 + NODE_SIZE * k)
        (slabNodeBytes slab (p.getD k 0 * NODE_WORDS))) b0 := by
  intro L
  induction L with
  | nil => intro b0 m0; rfl
  | cons k ks ih =>
    intro b0 m0
    simp only [List.foldl_cons]
    by_cases h : cc ≤ p.getD k 0
    · rw [if_pos h, if_pos h]
      exact ih b0 (m0.set k)
    · rw [if_neg h, if_neg h]
      exact ih (listWrite b0 (64 + NODE_SIZE * k)
        (slabNodeBytes slab (p.getD k 0 * NODE_WORDS))) m0

/-- The mask component of the producer's base-parent fold does not depend on
    the buffer component of the state. -/
theorem baseFold_snd_spec (cc : Nat) (p slab : List Nat) :
    ∀ (L : List Nat) (b0 : List Nat) (m0 : BitMask),
    (L.foldl (fun (st : List Nat × BitMask) k =>
      if cc ≤ p.getD k 0 then (st.1, st.2.set k)
      else (listWrite st.1 (64 + NODE_SIZE * k)
        (slabNodeBytes slab (p.getD k 0 * NODE_WORDS)), st.2)) (b0, m0)).2 =
    L.foldl (fun (m : BitMask) k =>
      if cc ≤ p.getD k 0 then m.set k else m) m0 := by
  intro L
  induction L with
  | nil => intro b0 m0; rfl
  | cons k ks ih =>
    intro b0 m0
    simp only [List.foldl_cons]
    by_cases h : cc ≤ p.getD k 0
    · rw [if_pos h, if_pos h]
      exact ih b0 (m0.set k)
    · rw [if_neg h, if_neg h]
      exact ih (listWrite b0 (64 + NODE_SIZE * k)
        (slabNodeBytes slab (p.getD k 0 * NODE_WORDS))) m0

/-- Bit `j` after the mask fold: it was set before, or `j` is one of the
    folded positions whose parent index is `≥ cur_consumer`. -/
theorem bitsFold_get_spec (cc : Nat) (p : List Nat) :
    ∀ (L : List Nat) (m0 : BitMask) (j : Nat),
    (L.foldl (fun (m : BitMask) k =>
      if cc ≤ p.getD k 0 then m.set k else m) m0).get j =
    (m0.get j || decide (j ∈ L ∧ cc ≤ p.getD j 0)) := by
  intro L
  induction L with
  | nil =>
    intro m0 j
    simp
  | cons k ks ih =>
    intro m0 j
    simp only [List.foldl_cons]
    by_cases h : cc ≤ p.getD k 0
    · rw [if_pos h, ih]
      by_cases hj : j = k
      · subst hj
        rw [bitmask_get_set_self, Bool.true_or,
          decide_eq_true ⟨List.mem_cons_self j ks, h⟩, Bool.or_true]
      · rw [bitmask_get_set_other m0 k j hj]
        have hiff : (j ∈ ks ∧ cc ≤ p.getD j 0) ↔
            (j ∈ k :: ks ∧ cc ≤ p.getD j 0) := by
          constructor
          · rintro ⟨hm, hp⟩
            exact ⟨List.mem_cons_of_mem _ hm, hp⟩
          · rintro ⟨hm, hp⟩
            rcases List.mem_cons.mp hm with h1 | h1
            · exact absurd h1 hj
            · exact ⟨h1, hp⟩
        rw [decide_eq_decide.mpr hiff]
    · rw [if_neg h, ih]
      have hiff : (j ∈ ks ∧ cc ≤ p.getD j 0) ↔
          (j ∈ k :: ks ∧ cc ≤ p.getD j 0) := by
        constructor
        · rintro ⟨hm, hp⟩
          exact ⟨List.mem_cons_of_mem _ hm, hp⟩
        · rintro ⟨hm, hp⟩
          rcases List.mem_cons.mp hm with h1 | h1
          · subst h1
            exact absurd hp h
          · exact ⟨h1, hp⟩
      rw [decide_eq_decide.mpr hiff]

/-- The expander fold writes only in the expander-parent region: the slot
    length is preserved and the base-parent blocks are untouched. -/
theorem expFold_spec (p exp : List Nat) :
    ∀ (L : List Nat), (∀ k ∈ L, BASE_DEGREE ≤ k ∧ k < DEGREE) →
    ∀ b : List Nat, b.length = 512 →
    (L.foldl (fun b k => listWrite b (64 + NODE_SIZE * k)
        (slabNodeBytes exp (p.getD k 0 * NODE_WORDS))) b).length = 512 ∧
    (∀ j, j < BASE_DEGREE →
      listSlice (L.foldl (fun b k => listWrite b (64 + NODE_SIZE * k)
          (slabNodeBytes exp (p.getD k 0 * NODE_WORDS))) b)
        (64 + NODE_SIZE * j) NODE_SIZE =
      listSlice b (64 + NODE_SIZE * j) NODE_SIZE) := by
  intro L
  induction L with
  | nil => intro _ b hb; exact ⟨hb, fun j _ => rfl⟩
  | cons k ks ih =>
    intro hL b hb
    have hkb : BASE_DEGREE ≤ k := (hL k (List.mem_cons_self k ks)).1
    have hkd : k < DEGREE := (hL k (List.mem_cons_self k ks)).2
    have hvle := slabNodeBytes_len_le exp (p.getD k 0 * NODE_WORDS)
    have hwb : 64 + NODE_SIZE * k +
        (slabNodeBytes exp (p.getD k 0 * NODE_WORDS)).length ≤ b.length := by
      have hk14 : k < 14 := hkd
      simp only [NODE_SIZE]
      omega
    have hb1 : (listWrite b (64 + NODE_SIZE * k)
        (slabNodeBytes exp (p.getD k 0 * NODE_WORDS))).length = 512 := by
      rw [Nse.listWrite_length _ _ _ hwb, hb]
    obtain ⟨ih1, ih2⟩ :=
      ih (fun x hx => hL x (List.mem_cons_of_mem _ hx)) _ hb1
    constructor
    · simp only [List.foldl_cons]
      exact ih1
    · intro j hj
      simp only [List.foldl_cons]
      refine (ih2 j hj).trans ?_
      refine listSlice_listWrite_disjoint b (64 + NODE_SIZE * k)
        (slabNodeBytes exp (p.getD k 0 * NODE_WORDS)) (64 + NODE_SIZE * j)
        NODE_SIZE hwb (Or.inr ?_)
      have hj6 : j < 6 := hj
      have hk6 : 6 ≤ k := hkb
      simp only [NODE_SIZE]
      omega

/-- The producer's conditional base-parent write fold: length preserved,
    the written blocks hold the slab's labels, the rest are untouched. -/
theorem baseBufFold_spec (cc : Nat) (p slab : List Nat) :
    ∀ (L : List Nat), L.Nodup → (∀ k ∈ L, k < DEGREE) →
    (∀ k ∈ L, p.getD k 0 * NODE_WORDS + NODE_WORDS ≤ slab.length) →
    ∀ b : List Nat, b.length = 512 →
    (L.foldl (fun b k => if cc ≤ p.getD k 0 then b
        else listWrite b (64 + NODE_SIZE * k)
          (slabNodeBytes slab (p.getD k 0 * NODE_WORDS))) b).length = 512 ∧
    (∀ j ∈ L, p.getD j 0 < cc →
      listSlice (L.foldl (fun b k => if cc ≤ p.getD k 0 then b
          else listWrite b (64 + NODE_SIZE * k)
            (slabNodeBytes slab (p.getD k 0 * NODE_WORDS))) b)
        (64 + NODE_SIZE * j) NODE_SIZE =
      slabNodeBytes slab (p.getD j 0 * NODE_WORDS)) ∧
    (∀ j, j < DEGREE → (j ∉ L ∨ cc ≤ p.getD j 0) →
      listSlice (L.foldl (fun b k => if cc ≤ p.getD k 0 then b
          else listWrite b (64 + NODE_SIZE * k)
            (slabNodeBytes slab (p.getD k 0 * NODE_WORDS))) b)
        (64 + NODE_SIZE * j) NODE_SIZE =
      listSlice b (64 + NODE_SIZE * j) NODE_SIZE) := by
  intro L
  induction L with
  | nil =>
    intro _ _ _ b hb
    exact ⟨hb, fun j hj _ => absurd hj (List.not_mem_nil j),
      fun j _ _ => rfl⟩
  | cons k ks ih =>
    intro hnd hdeg hsl b hb
    have hknotin : k ∉ ks := (List.nodup_cons.mp hnd).1
    have hndks : ks.Nodup := (List.nodup_cons.mp hnd).2
    have hdegs : ∀ x ∈ ks, x < DEGREE :=
      fun x hx => hdeg x (List.mem_cons_of_mem _ hx)
    have hsls : ∀ x ∈ ks, p.getD x 0 * NODE_WORDS + NODE_WORDS ≤ slab.length :=
      fun x hx => hsl x (List.mem_cons_of_mem _ hx)
    have hkd : k < DEGREE := hdeg k (List.mem_cons_self k ks)
    by_cases h : cc ≤ p.getD k 0
    · obtain ⟨ih1, ih2, ih3⟩ := ih hndks hdegs hsls b hb
      refine ⟨?_, ?_, ?_⟩
      · simp only [List.foldl_cons]
        rw [if_pos h]
        exact ih1
      · intro j hj hlt
        simp only [List.foldl_cons]
        rw [if_pos h]
        rcases List.mem_cons.mp hj with rfl | hjm
        · exact absurd h (by omega)
        · exact ih2 j hjm hlt
      · intro j hjd hcase
        simp only [List.foldl_cons]
        rw [if_pos h]
        refine ih3 j hjd ?_
        rcases hcase with hnm | hle
        · exact Or.inl (fun hc => hnm (List.mem_cons_of_mem _ hc))
        · exact Or.inr hle
    · have hwb : 64 + NODE_SIZE * k +
          (slabNodeBytes slab (p.getD k 0 * NODE_WORDS)).length ≤ b.length := by
        have hk14 : k < 14 := hkd
        have hle32 := slabNodeBytes_len_le slab (p.getD k 0 * NODE_WORDS)
        simp only [NODE_SIZE]
        omega
      have hlen32 : (slabNodeBytes slab (p.getD k 0 * NODE_WORDS)).length =
          NODE_SIZE :=
        slabNodeBytes_len slab _ (hsl k (List.mem_cons_self k ks))
      have hb1 : (listWrite b (64 + NODE_SIZE * k)
          (slabNodeBytes slab (p.getD k 0 * NODE_WORDS))).length = 512 := by
        rw [Nse.listWrite_length _ _ _ hwb, hb]
      obtain ⟨ih1, ih2, ih3⟩ := ih hndks hdegs hsls _ hb1
      refine ⟨?_, ?_, ?_⟩
      · simp only [List.foldl_cons]
        rw [if_neg h]
        exact ih1
      · intro j hj hlt
        simp only [List.foldl_cons]
        rw [if_neg h]
        rcases List.mem_cons.mp hj with rfl | hjm
        · rw [ih3 j hkd (Or.inl hknotin)]
          have h2 := listSlice_listWrite_self b (64 + NODE_SIZE * j)
            (slabNodeBytes slab (p.getD j 0 * NODE_WORDS)) hwb
          rwa [hlen32] at h2
        · exact ih2 j hjm hlt
      · intro j hjd hcase
        simp only [List.foldl_cons]
        rw [if_neg h]
        have hjk : j ≠ k := by
          rcases hcase with hnm | hle
          · exact fun he => hnm (by rw [he]; exact List.mem_cons_self k ks)
          · exact fun he => h (he ▸ hle)
        have hstep := ih3 j hjd (by
          rcases hcase with hnm | hle
          · exact Or.inl (fun hc => hnm (List.mem_cons_of_mem _ hc))
          · exact Or.inr hle)
        rw [hstep]
        refine listSlice_listWrite_disjoint b (64 + NODE_SIZE * k)
          (slabNodeBytes slab (p.getD k 0 * NODE_WORDS)) (64 + NODE_SIZE * j)
          NODE_SIZE hwb ?_
        have h14 : DEGREE = 14 := rfl
        simp only [NODE_SIZE] at hlen32 ⊢
        omega

/-- The consumer's patch fold: length preserved, every missing-marked block
    is filled from the slab, the marked-present blocks are untouched. -/
theorem patchFold_spec (bpm : BitMask) (p slab : List Nat) :
    ∀ (L : List Nat), L.Nodup → (∀ k ∈ L, k < DEGREE) →
    (∀ k ∈ L, p.getD k 0 * NODE_WORDS + NODE_WORDS ≤ slab.length) →
    ∀ b : List Nat, b.length = 512 →
    (L.foldl (fun b k => if bpm.get k then
        listWrite b (64 + NODE_SIZE * k)
          (slabNodeBytes slab (p.getD k 0 * NODE_WORDS)) else b) b).length
      = 512 ∧
    (∀ j ∈ L, bpm.get j = true →
      listSlice (L.foldl (fun b k => if bpm.get k then
          listWrite b (64 + NODE_SIZE * k)
            (slabNodeBytes slab (p.getD k 0 * NODE_WORDS)) else b) b)
        (64 + NODE_SIZE * j) NODE_SIZE =
      slabNodeBytes slab (p.getD j 0 * NODE_WORDS)) ∧
    (∀ j, j < DEGREE → (j ∉ L ∨ bpm.get j = false) →
      listSlice (L.foldl (fun b k => if bpm.get k then
          listWrite b (64 + NODE_SIZE * k)
            (slabNodeBytes slab (p.getD k 0 * NODE_WORDS)) else b) b)
        (64 + NODE_SIZE * j) NODE_SIZE =
      listSlice b (64 + NODE_SIZE * j) NODE_SIZE) := by
  intro L
  induction L with
  | nil =>
    intro _ _ _ b hb
    exact ⟨hb, fun j hj _ => absurd hj (List.not_mem_nil j),
      fun j _ _ => rfl⟩
  | cons k ks ih =>
    intro hnd hdeg hsl b hb
    have hknotin : k ∉ ks := (List.nodup_cons.mp hnd).1
    have hndks : ks.Nodup := (List.nodup_cons.mp hnd).2
    have hdegs : ∀ x ∈ ks, x < DEGREE :=
      fun x hx => hdeg x (List.mem_cons_of_mem _ hx)
    have hsls : ∀ x ∈ ks, p.getD x 0 * NODE_WORDS + NODE_WORDS ≤ slab.length :=
      fun x hx => hsl x (List.mem_cons_of_mem _ hx)
    have hkd : k < DEGREE := hdeg k (List.mem_cons_self k ks)
    by_cases h : bpm.get k = true
    · have hwb : 64 + NODE_SIZE * k +
          (slabNodeBytes slab (p.getD k 0 * NODE_WORDS)).length ≤ b.length := by
        have hk14 : k < 14 := hkd
        have hle32 := slabNodeBytes_len_le slab (p.getD k 0 * NODE_WORDS)
        simp only [NODE_SIZE]
        omega
      have hlen32 : (slabNodeBytes slab (p.getD k 0 * NODE_WORDS)).length =
          NODE_SIZE :=
        slabNodeBytes_len slab _ (hsl k (List.mem_cons_self k ks))
      have hb1 : (listWrite b (64 + NODE_SIZE * k)
          (slabNodeBytes slab (p.getD k 0 * NODE_WORDS))).length = 512 := by
        rw [Nse.listWrite_length _ _ _ hwb, hb]
      obtain ⟨ih1, ih2, ih3⟩ := ih hndks hdegs hsls _ hb1
      refine ⟨?_, ?_, ?_⟩
      · simp only [List.foldl_cons]
        rw [if_pos h]
        exact ih1
      · intro j hj hset
        simp only [List.foldl_cons]
        rw [if_pos h]
        rcases List.mem_cons.mp hj with rfl | hjm
        · rw [ih3 j hkd (Or.inl hknotin)]
          have h2 := listSlice_listWrite_self b (64 + NODE_SIZE * j)
            (slabNodeBytes slab (p.getD j 0 * NODE_WORDS)) hwb
          rwa [hlen32] at h2
        · exact ih2 j hjm hset
      · intro j hjd hcase
        simp only [List.foldl_cons]
        rw [if_pos h]
        have hjk : j ≠ k := by
          rcases hcase with hnm | hfal
          · exact fun he => hnm (by rw [he]; exact List.mem_cons_self k ks)
          · intro he
            rw [he, h] at hfal
            exact Bool.noConfusion hfal
        have hstep := ih3 j hjd (by
          rcases hcase with hnm | hfal
          · exact Or.inl (fun hc => hnm (List.mem_cons_of_mem _ hc))
          · exact Or.inr hfal)
        rw [hstep]
        refine listSlice_listWrite_disjoint b (64 + NODE_SIZE * k)
          (slabNodeBytes slab (p.getD k 0 * NODE_WORDS)) (64 + NODE_SIZE * j)
          NODE_SIZE hwb ?_
        have h14 : DEGREE = 14 := rfl
        simp only [NODE_SIZE] at hlen32 ⊢
        omega
    · obtain ⟨ih1, ih2, ih3⟩ := ih hndks hdegs hsls b hb
      refine ⟨?_, ?_, ?_⟩
      · simp only [List.foldl_cons]
        rw [if_neg h]
        exact ih1
      · intro j hj hset
        simp only [List.foldl_cons]
        rw [if_neg h]
        rcases List.mem_cons.mp hj with rfl | hjm
        · exact absurd hset h
        · exact ih2 j hjm hset
      · intro j hjd hcase
        simp only [List.foldl_cons]
        rw [if_neg h]
        refine ih3 j hjd ?_
        rcases hcase with hnm | hfal
        · exact Or.inl (fun hc => hnm (List.mem_cons_of_mem _ hc))
        · exact Or.inr hfal

/-- `fill_buffer` returns the layer slab with the node's first SHA-256 round
    written at the node's words, whatever the other arguments. -/
theorem fill_buffer_labels (compress : List Nat → List Nat → List Nat)
    (cur_node cur_consumer : Nat) (cur_parent layer_labels buf : List Nat)
    (exp_labels : Option (List Nat)) (m : BitMask) :
    (fill_buffer compress cur_node cur_consumer cur_parent layer_labels
      exp_labels buf m).2.2 =
    listWrite layer_labels (cur_node * NODE_WORDS)
      (compress SHA256_INITIAL_DIGEST
        ((listWrite buf 36 (beBytes 8 cur_node)).take 64)) := by
  cases exp_labels <;> rfl

/-- The slot buffer `fill_buffer` returns when there are no expander
    labels, as the base-parent fold over the stamped slot. -/
theorem fill_buffer_fst_none (compress : List Nat → List Nat → List Nat)
    (cur_node cur_consumer : Nat) (cur_parent layer_labels buf : List Nat)
    (m : BitMask) :
    (fill_buffer compress cur_node cur_consumer cur_parent layer_labels
      none buf m).1 =
    (if MIN_BASE_PARENT_NODE < cur_node then
      (List.range (BASE_DEGREE - 1)).foldl
        (fun (st : List Nat × BitMask) k =>
          if cur_consumer ≤ cur_parent.getD k 0 then (st.1, st.2.set k)
          else (listWrite st.1 (64 + NODE_SIZE * k)
            (slabNodeBytes
              (listWrite layer_labels (cur_node * NODE_WORDS)
                (compress SHA256_INITIAL_DIGEST
                  ((listWrite buf 36 (beBytes 8 cur_node)).take 64)))
              (cur_parent.getD k 0 * NODE_WORDS)), st.2))
        (listWrite buf 36 (beBytes 8 cur_node), m.set 5)
    else (listWrite buf 36 (beBytes 8 cur_node),
      m.set_upto BASE_DEGREE)).1 := rfl

/-- The mask `fill_buffer` returns when there are no expander labels. -/
theorem fill_buffer_snd_none (compress : List Nat → List Nat → List Nat)
    (cur_node cur_consumer : Nat) (cur_parent layer_labels buf : List Nat)
    (m : BitMask) :
    (fill_buffer compress cur_node cur_consumer cur_parent layer_labels
      none buf m).2.1 =
    (if MIN_BASE_PARENT_NODE < cur_node then
      (List.range (BASE_DEGREE - 1)).foldl
        (fun (st : List Nat × BitMask) k =>
          if cur_consumer ≤ cur_parent.getD k 0 then (st.1, st.2.set k)
          else (listWrite st.1 (64 + NODE_SIZE * k)
            (slabNodeBytes
              (listWrite layer_labels (cur_node * NODE_WORDS)
                (compress SHA256_INITIAL_DIGEST
                  ((listWrite buf 36 (beBytes 8 cur_node)).take 64)))
              (cur_parent.getD k 0 * NODE_WORDS)), st.2))
        (listWrite buf 36 (beBytes 8 cur_node), m.set 5)
    else (listWrite buf 36 (beBytes 8 cur_node),
      m.set_upto BASE_DEGREE)).2 := rfl

/-- The slot buffer `fill_buffer` returns with expander labels: the
    expander fold applied after the base-parent fold. -/
theorem fill_buffer_fst_some (compress : List Nat → List Nat → List Nat)
    (cur_node cur_consumer : Nat)
    (cur_parent layer_labels exp buf : List Nat) (m : BitMask) :
    (fill_buffer compress cur_node cur_consumer cur_parent layer_labels
      (some exp) buf m).1 =
    (List.range' BASE_DEGREE (DEGREE - BASE_DEGREE)).foldl
      (fun b k => listWrite b (64 + NODE_SIZE * k)
        (slabNodeBytes exp (cur_parent.getD k 0 * NODE_WORDS)))
      ((if MIN_BASE_PARENT_NODE < cur_node then
        (List.range (BASE_DEGREE - 1)).foldl
          (fun (st : List Nat × BitMask) k =>
            if cur_consumer ≤ cur_parent.getD k 0 then (st.1, st.2.set k)
            else (listWrite st.1 (64 + NODE_SIZE * k)
              (slabNodeBytes
                (listWrite layer_labels (cur_node * NODE_WORDS)
                  (compress SHA256_INITIAL_DIGEST
                    ((listWrite buf 36 (beBytes 8 cur_node)).take 64)))
                (cur_parent.getD k 0 * NODE_WORDS)), st.2))
          (listWrite buf 36 (beBytes 8 cur_node), m.set 5)
      else (listWrite buf 36 (beBytes 8 cur_node),
        m.set_upto BASE_DEGREE)).1) := rfl

/-- The mask `fill_buffer` returns with expander labels: the expander fold
    leaves the mask unchanged. -/
theorem fill_buffer_snd_some (compress : List Nat → List Nat → List Nat)
    (cur_node cur_consumer : Nat)
    (cur_parent layer_labels exp buf : List Nat) (m : BitMask) :
    (fill_buffer compress cur_node cur_consumer cur_parent layer_labels
      (some exp) buf m).2.1 =
    (if MIN_BASE_PARENT_NODE < cur_node then
      (List.range (BASE_DEGREE - 1)).foldl
        (fun (st : List Nat × BitMask) k =>
          if cur_consumer ≤ cur_parent.getD k 0 then (st.1, st.2.set k)
          else (listWrite st.1 (64 + NODE_SIZE * k)
            (slabNodeBytes
              (listWrite layer_labels (cur_node * NODE_WORDS)
                (compress SHA256_INITIAL_DIGEST
                  ((listWrite buf 36 (beBytes 8 cur_node)).take 64)))
              (cur_parent.getD k 0 * NODE_WORDS)), st.2))
        (listWrite buf 36 (beBytes 8 cur_node), m.set 5)
    else (listWrite buf 36 (beBytes 8 cur_node),
      m.set_upto BASE_DEGREE)).2 := rfl

/-- Full characterization of one `fill_buffer` call on a fresh slot mask:
    slot length, both mask shapes, the untouched base-parent blocks and the
    blocks copied from the layer's own slab. -/
theorem fill_buffer_slot_spec (compress : List Nat → List Nat → List Nat)
    (cur_node cur_consumer : Nat) (cur_parent : List Nat)
    (layer_labels : List Nat) (exp_labels : Option (List Nat))
    (buf out : List Nat) (bpm : BitMask) (lab : List Nat)
    (hr : fill_buffer compress cur_node cur_consumer cur_parent layer_labels
      exp_labels buf (BitMask.mk 0) = (out, bpm, lab))
    (hbuf : buf.length = 512)
    (hpar : ∀ k, k < BASE_DEGREE - 1 →
      cur_parent.getD k 0 * NODE_WORDS + NODE_WORDS ≤ layer_labels.length) :
    out.length = 512 ∧
    (cur_node ≤ MIN_BASE_PARENT_NODE →
      ∀ j, bpm.get j = decide (j < BASE_DEGREE)) ∧
    (MIN_BASE_PARENT_NODE < cur_node →
      ∀ j, bpm.get j = (decide (j = 5) ||
        decide (j ∈ List.range (BASE_DEGREE - 1) ∧
          cur_consumer ≤ cur_parent.getD j 0))) ∧
    (∀ j, j < BASE_DEGREE →
      (cur_node ≤ MIN_BASE_PARENT_NODE ∨ j = 5 ∨
        cur_consumer ≤ cur_parent.getD j 0) →
      listSlice out (64 + NODE_SIZE * j) NODE_SIZE =
        listSlice buf (64 + NODE_SIZE * j) NODE_SIZE) ∧
    (MIN_BASE_PARENT_NODE < cur_node →
      ∀ j, j < BASE_DEGREE - 1 → cur_parent.getD j 0 < cur_consumer →
      listSlice out (64 + NODE_SIZE * j) NODE_SIZE =
        slabNodeBytes lab (cur_parent.getD j 0 * NODE_WORDS)) := by
  have hout : out = (fill_buffer compress cur_node cur_consumer cur_parent
      layer_labels exp_labels buf (BitMask.mk 0)).1 := by rw [hr]
  have hbpm : bpm = (fill_buffer compress cur_node cur_consumer cur_parent
      layer_labels exp_labels buf (BitMask.mk 0)).2.1 := by rw [hr]
  have hlab : lab = (fill_buffer compress cur_node cur_consumer cur_parent
      layer_labels exp_labels buf (BitMask.mk 0)).2.2 := by rw [hr]
  subst hout hbpm hlab
  have hbuf1 : (listWrite buf 36 (beBytes 8 cur_node)).length = 512 := by
    rw [Nse.listWrite_length _ _ _ (by rw [length_beBytes, hbuf]; omega), hbuf]
  have hbufslice : ∀ j, j < BASE_DEGREE →
      listSlice (listWrite buf 36 (beBytes 8 cur_node))
        (64 + NODE_SIZE * j) NODE_SIZE =
      listSlice buf (64 + NODE_SIZE * j) NODE_SIZE := by
    intro j _
    refine listSlice_listWrite_disjoint buf 36 (beBytes 8 cur_node) _ _
      (by rw [length_beBytes, hbuf]; omega) (Or.inl ?_)
    rw [length_beBytes]
    have h32 : NODE_SIZE = 32 := rfl
    omega
  have hparL1 : ∀ k ∈ List.range (BASE_DEGREE - 1),
      cur_parent.getD k 0 * NODE_WORDS + NODE_WORDS ≤
      (listWrite layer_labels (cur_node * NODE_WORDS)
        (compress SHA256_INITIAL_DIGEST
          ((listWrite buf 36 (beBytes 8 cur_node)).take 64))).length := by
    intro k hk
    exact le_trans (hpar k (List.mem_range.mp hk))
      (length_le_listWrite layer_labels _ _)
  have hdeg5 : ∀ k ∈ List.range (BASE_DEGREE - 1), k < DEGREE := by
    intro k hk
    have h := List.mem_range.mp hk
    have hB : BASE_DEGREE - 1 = 5 := rfl
    have hD : DEGREE = 14 := rfl
    omega
  rcases exp_labels with _ | exp
  · rw [fill_buffer_fst_none, fill_buffer_snd_none, fill_buffer_labels]
    by_cases hv : MIN_BASE_PARENT_NODE < cur_node
    · rw [if_pos hv, baseFold_fst_spec, baseFold_snd_spec]
      obtain ⟨hlen5, hin5, hout5⟩ := baseBufFold_spec cur_consumer cur_parent
        (listWrite layer_labels (cur_node * NODE_WORDS)
          (compress SHA256_INITIAL_DIGEST
            ((listWrite buf 36 (beBytes 8 cur_node)).take 64)))
        (List.range (BASE_DEGREE - 1)) (List.nodup_range _) hdeg5 hparL1
        (listWrite buf 36 (beBytes 8 cur_node)) hbuf1
      refine ⟨hlen5, ?_, ?_, ?_, ?_⟩
      · intro hsm
        exact absurd hv (by omega)
      · intro _ j
        rw [bitsFold_get_spec]
        by_cases hj5 : j = 5
        · subst hj5
          rw [bitmask_get_set_self]
          simp
        · rw [bitmask_get_set_other _ _ _ hj5, bitmask_get_mk_zero,
            decide_eq_false hj5, Bool.false_or]
      · intro j hj hcond
        have hjd : j < DEGREE := by
          have hB : BASE_DEGREE = 6 := rfl
          have hD : DEGREE = 14 := rfl
          omega
        rcases hcond with hsm | hj5 | hle
        · exact absurd hv (by omega)
        · refine (hout5 j hjd (Or.inl ?_)).trans (hbufslice j hj)
          intro hc
          have h := List.mem_range.mp hc
          have hB : BASE_DEGREE - 1 = 5 := rfl
          omega
        · exact (hout5 j hjd (Or.inr hle)).trans (hbufslice j hj)
      · intro _ j hj5 hlt
        exact hin5 j (List.mem_range.mpr hj5) hlt
    · rw [if_neg hv]
      refine ⟨hbuf1, ?_, ?_, ?_, ?_⟩
      · intro _ j
        exact bitmask_get_set_upto (BitMask.mk 0) BASE_DEGREE j
      · intro hbig
        exact absurd hbig hv
      · intro j hj _
        exact hbufslice j hj
      · intro hbig
        exact absurd hbig hv
  · rw [fill_buffer_fst_some, fill_buffer_snd_some, fill_buffer_labels]
    have hexpL : ∀ k ∈ List.range' BASE_DEGREE (DEGREE - BASE_DEGREE),
        BASE_DEGREE ≤ k ∧ k < DEGREE := by
      intro k hk
      have h := List.mem_range'_1.mp hk
      have hB : BASE_DEGREE = 6 := rfl
      have hD : DEGREE = 14 := rfl
      omega
    by_cases hv : MIN_BASE_PARENT_NODE < cur_node
    · rw [if_pos hv, baseFold_fst_spec, baseFold_snd_spec]
      obtain ⟨hlen5, hin5, hout5⟩ := baseBufFold_spec cur_consumer cur_parent
        (listWrite layer_labels (cur_node * NODE_WORDS)
          (compress SHA256_INITIAL_DIGEST
            ((listWrite buf 36 (beBytes 8 cur_node)).take 64)))
        (List.range (BASE_DEGREE - 1)) (List.nodup_range _) hdeg5 hparL1
        (listWrite buf 36 (beBytes 8 cur_node)) hbuf1
      obtain ⟨helen, heslice⟩ := expFold_spec cur_parent exp
        (List.range' BASE_DEGREE (DEGREE - BASE_DEGREE)) hexpL
        ((List.range (BASE_DEGREE - 1)).foldl
          (fun b k => if cur_consumer ≤ cur_parent.getD k 0 then b
            else listWrite b (64 + NODE_SIZE * k)
              (slabNodeBytes
                (listWrite layer_labels (cur_node * NODE_WORDS)
                  (compress SHA256_INITIAL_DIGEST
                    ((listWrite buf 36 (beBytes 8 cur_node)).take 64)))
                (cur_parent.getD k 0 * NODE_WORDS)))
          (listWrite buf 36 (beBytes 8 cur_node))) hlen5
      refine ⟨helen, ?_, ?_, ?_, ?_⟩
      · intro hsm
        exact absurd hv (by omega)
      · intro _ j
        rw [bitsFold_get_spec]
        by_cases hj5 : j = 5
        · subst hj5
          rw [bitmask_get_set_self]
          simp
        · rw [bitmask_get_set_other _ _ _ hj5, bitmask_get_mk_zero,
            decide_eq_false hj5, Bool.false_or]
      · intro j hj hcond
        refine (heslice j hj).trans ?_
        have hjd : j < DEGREE := by
          have hB : BASE_DEGREE = 6 := rfl
          have hD : DEGREE = 14 := rfl
          omega
        rcases hcond with hsm | hj5 | hle
        · exact absurd hv (by omega)
        · refine (hout5 j hjd (Or.inl ?_)).trans (hbufslice j hj)
          intro hc
          have h := List.mem_range.mp hc
          have hB : BASE_DEGREE - 1 = 5 := rfl
          omega
        · exact (hout5 j hjd (Or.inr hle)).trans (hbufslice j hj)
      · intro _ j hj5 hlt
        have hj : j < BASE_DEGREE := by
          have hB : BASE_DEGREE = 6 := rfl
          omega
        refine (heslice j hj).trans ?_
        exact hin5 j (List.mem_range.mpr hj5) hlt
    · rw [if_neg hv]
      obtain ⟨helen, heslice⟩ := expFold_spec cur_parent exp
        (List.range' BASE_DEGREE (DEGREE - BASE_DEGREE)) hexpL
        ((listWrite buf 36 (beBytes 8 cur_node),
          (BitMask.mk 0).set_upto BASE_DEGREE).1) hbuf1
      refine ⟨helen, ?_, ?_, ?_, ?_⟩
      · intro _ j
        exact bitmask_get_set_upto (BitMask.mk 0) BASE_DEGREE j
      · intro hbig
        exact absurd hbig hv
      · intro j hj _
        exact (heslice j hj).trans (hbufslice j hj)
      · intro hbig
        exact absurd hbig hv

/-- C9: after `fill_buffer` prefills the ring-buffer slot of a node
    `cur_node ≥ 1` with the slot's fresh mask, bit 5 of
    `base_parent_missing` is set; for `cur_node ≤ MIN_BASE_PARENT_NODE` all
    six base-parent bits are set and no base-parent label bytes are copied
    (the slot's base-parent region is exactly as it was); for
    `cur_node > MIN_BASE_PARENT_NODE` a base parent is marked missing
    exactly when its cached index is `≥ cur_consumer` (parent 5, the
    immediately preceding node, always has index `≥ cur_consumer` at
    prefetch time), and every other base parent's 32-byte label is copied
    from the layer's own slab. -/
theorem fillBufferBitmask (compress : List Nat → List Nat → List Nat)
    (cur_node cur_consumer : Nat) (cur_parent : List Nat)
    (layer_labels : List Nat) (exp_labels : Option (List Nat))
    (buf out : List Nat) (bpm : BitMask) (lab : List Nat)
    (hr : fill_buffer compress cur_node cur_consumer cur_parent layer_labels
      exp_labels buf (BitMask.mk 0) = (out, bpm, lab))
    (hv : 1 ≤ cur_node) (hbuf : buf.length = 512)
    (hpar : ∀ k, k < BASE_DEGREE - 1 →
      cur_parent.getD k 0 * NODE_WORDS + NODE_WORDS ≤ layer_labels.length)
    (hprec : cur_consumer ≤ cur_parent.getD 5 0) :
    bpm.get 5 = true ∧
    (cur_node ≤ MIN_BASE_PARENT_NODE →
      (∀ k, k < BASE_DEGREE → bpm.get k = true) ∧
      (∀ k, k < BASE_DEGREE →
        listSlice out (64 + NODE_SIZE * k) NODE_SIZE =
          listSlice buf (64 + NODE_SIZE * k) NODE_SIZE)) ∧
    (MIN_BASE_PARENT_NODE < cur_node →
      ∀ k, k < BASE_DEGREE →
        (bpm.get k = true ↔ cur_consumer ≤ cur_parent.getD k 0) ∧
        (cur_parent.getD k 0 < cur_consumer →
          listSlice out (64 + NODE_SIZE * k) NODE_SIZE =
            slabNodeBytes lab (cur_parent.getD k 0 * NODE_WORDS))) := by
  obtain ⟨hlen, hsm, hbig, hunch, hcopy⟩ :=
    fill_buffer_slot_spec compress cur_node cur_consumer cur_parent
      layer_labels exp_labels buf out bpm lab hr hbuf hpar
  refine ⟨?_, ?_, ?_⟩
  · rcases Nat.lt_or_ge MIN_BASE_PARENT_NODE cur_node with hb | hs
    · rw [hbig hb 5]
      simp
    · rw [hsm hs 5]
      rfl
  · intro hs
    constructor
    · intro k hk
      rw [hsm hs k]
      exact decide_eq_true hk
    · intro k hk
      exact hunch k hk (Or.inl hs)
  · intro hb k hk
    constructor
    · rw [hbig hb k]
      constructor
      · intro hor
        rcases Bool.or_eq_true_iff.mp hor with h1 | h2
        · have h5 : k = 5 := of_decide_eq_true h1
          rw [h5]
          exact hprec
        · exact (of_decide_eq_true h2).2
      · intro hle
        by_cases hk5 : k = 5
        · exact Bool.or_eq_true_iff.mpr (Or.inl (decide_eq_true hk5))
        · refine Bool.or_eq_true_iff.mpr (Or.inr (decide_eq_true ⟨?_, hle⟩))
          refine List.mem_range.mpr ?_
          have hB : BASE_DEGREE - 1 = 5 := rfl
          have hB6 : BASE_DEGREE = 6 := rfl
          omega
    · intro hlt
      by_cases hk5 : k = 5
      · rw [hk5] at hlt
        exact absurd hprec (by omega)
      · refine hcopy hb k ?_ hlt
        have hB : BASE_DEGREE - 1 = 5 := rfl
        have hB6 : BASE_DEGREE = 6 := rfl
        omega

/-- C9 witness: node 2001 with consumer at 1, parents `[0, 0, 0, 0, 3, 2000]`
    in a 32-word layer slab: the hypotheses hold and the theorem applies. -/
theorem fillBufferBitmaskWitness :
    ((1 : Nat) ≤ 2001 ∧ (List.replicate 512 0 : List Nat).length = 512 ∧
      (1 : Nat) ≤ [0, 0, 0, 0, 3, 2000].getD 5 0) ∧
    ((fill_buffer (fun _ _ => List.replicate 8 0) 2001 1 [0, 0, 0, 0, 3, 2000]
        (List.replicate 32 0) none (List.replicate 512 0)
        (BitMask.mk 0)).2.1.get 5 = true ∧
      ((2001 : Nat) ≤ MIN_BASE_PARENT_NODE →
        (∀ k, k < BASE_DEGREE →
          (fill_buffer (fun _ _ => List.replicate 8 0) 2001 1
            [0, 0, 0, 0, 3, 2000] (List.replicate 32 0) none
            (List.replicate 512 0) (BitMask.mk 0)).2.1.get k = true) ∧
        (∀ k, k < BASE_DEGREE →
          listSlice (fill_buffer (fun _ _ => List.replicate 8 0) 2001 1
              [0, 0, 0, 0, 3, 2000] (List.replicate 32 0) none
              (List.replicate 512 0) (BitMask.mk 0)).1
            (64 + NODE_SIZE * k) NODE_SIZE =
          listSlice (List.replicate 512 0) (64 + NODE_SIZE * k) NODE_SIZE)) ∧
      (MIN_BASE_PARENT_NODE < 2001 →
        ∀ k, k < BASE_DEGREE →
          ((fill_buffer (fun _ _ => List.replicate 8 0) 2001 1
              [0, 0, 0, 0, 3, 2000] (List.replicate 32 0) none
              (List.replicate 512 0) (BitMask.mk 0)).2.1.get k = true ↔
            1 ≤ [0, 0, 0, 0, 3, 2000].getD k 0) ∧
          ([0, 0, 0, 0, 3, 2000].getD k 0 < 1 →
            listSlice (fill_buffer (fun _ _ => List.replicate 8 0) 2001 1
                [0, 0, 0, 0, 3, 2000] (List.replicate 32 0) none
                (List.replicate 512 0) (BitMask.mk 0)).1
              (64 + NODE_SIZE * k) NODE_SIZE =
            slabNodeBytes (fill_buffer (fun _ _ => List.replicate 8 0) 2001 1
                [0, 0, 0, 0, 3, 2000] (List.replicate 32 0) none
                (List.replicate 512 0) (BitMask.mk 0)).2.2
              ([0, 0, 0, 0, 3, 2000].getD k 0 * NODE_WORDS)))) :=
  ⟨⟨by decide, by simp, by decide⟩,
    fillBufferBitmask (fun _ _ => List.replicate 8 0) 2001 1
      [0, 0, 0, 0, 3, 2000] (List.replicate 32 0) none (List.replicate 512 0)
      _ _ _ rfl (by decide) (by simp) (by decide) (by decide)⟩

/-- C4 (counterexample): the producer's prefetch copy of a ready base parent
    is read from the slab of the layer being built (`layer_labels`), not
    from the previous layer's slab (`exp_labels`): with the two slabs
    holding different labels at parent index 0, the copied block equals the
    current layer's label there and differs from the previous layer's. -/
theorem baseParentNotFromPreviousLayer :
    listSlice c4Fill.1 64 NODE_SIZE = slabNodeBytes c4Layer 0 ∧
    listSlice c4Fill.1 64 NODE_SIZE ≠ slabNodeBytes c4Exp 0 := by
  decide

/-- C4 (amended): every base-parent label block entering the preimage is
    read from the CURRENT layer's slab: the producer copies the ready base
    parents from `layer_labels` at prefetch time, and the consumer patches
    each missing one from `layer_labels` at hashing time; the previous
    layer's slab (`exp_labels`) supplies only expander parents. After
    `fill_buffer` and the consumer's patch loop, every base-parent block of
    the slot holds the layer slab's bytes at the cached parent index —
    never the previous layer's. -/
theorem baseParentsFromCurrentLayer
    (compress : List Nat → List Nat → List Nat)
    (cur_node cur_consumer : Nat) (cur_parent : List Nat)
    (layer_labels patch_labels : List Nat) (exp_labels : Option (List Nat))
    (buf out : List Nat) (bpm : BitMask) (lab : List Nat)
    (hr : fill_buffer compress cur_node cur_consumer cur_parent layer_labels
      exp_labels buf (BitMask.mk 0) = (out, bpm, lab))
    (hbuf : buf.length = 512)
    (hpar : ∀ k, k < BASE_DEGREE - 1 →
      cur_parent.getD k 0 * NODE_WORDS + NODE_WORDS ≤ layer_labels.length)
    (hpatch : ∀ k, k < BASE_DEGREE →
      cur_parent.getD k 0 * NODE_WORDS + NODE_WORDS ≤ patch_labels.length) :
    ∀ k, k < BASE_DEGREE →
      listSlice (consumer_patch out bpm patch_labels cur_parent)
        (64 + NODE_SIZE * k) NODE_SIZE =
      if bpm.get k then
        slabNodeBytes patch_labels (cur_parent.getD k 0 * NODE_WORDS)
      else slabNodeBytes lab (cur_parent.getD k 0 * NODE_WORDS) := by
  obtain ⟨hlen, hsm, hbig, hunch, hcopy⟩ :=
    fill_buffer_slot_spec compress cur_node cur_consumer cur_parent
      layer_labels exp_labels buf out bpm lab hr hbuf hpar
  obtain ⟨hplen, hpin, hpout⟩ := patchFold_spec bpm cur_parent patch_labels
    (List.range BASE_DEGREE) (List.nodup_range _)
    (by
      intro x hx
      have h := List.mem_range.mp hx
      have hB : BASE_DEGREE = 6 := rfl
      have hD : DEGREE = 14 := rfl
      omega)
    (fun x hx => hpatch x (List.mem_range.mp hx))
    out hlen
  intro k hk
  by_cases hg : bpm.get k = true
  · rw [if_pos hg]
    exact hpin k (List.mem_range.mpr hk) hg
  · rw [if_neg hg]
    have hgf : bpm.get k = false := by
      rcases Bool.eq_false_or_eq_true (bpm.get k) with h | h
      · exact absurd h hg
      · exact h
    have hstep : listSlice (consumer_patch out bpm patch_labels cur_parent)
        (64 + NODE_SIZE * k) NODE_SIZE =
        listSlice out (64 + NODE_SIZE * k) NODE_SIZE := by
      refine hpout k ?_ (Or.inr hgf)
      have hB : BASE_DEGREE = 6 := rfl
      have hD : DEGREE = 14 := rfl
      omega
    rw [hstep]
    rcases Nat.lt_or_ge MIN_BASE_PARENT_NODE cur_node with hb | hs
    · have hmask := hbig hb k
      rw [hgf] at hmask
      have hor := Bool.or_eq_false_iff.mp hmask.symm
      have hk5 : k ≠ 5 := fun he => (of_decide_eq_false hor.1) he
      have hnotin := of_decide_eq_false hor.2
      have hklt5 : k < BASE_DEGREE - 1 := by
        have hB : BASE_DEGREE = 6 := rfl
        omega
      have hltcc : cur_parent.getD k 0 < cur_consumer := by
        by_contra hcon
        exact hnotin ⟨List.mem_range.mpr hklt5, by omega⟩
      exact hcopy hb k hklt5 hltcc
    · have hall := hsm (by omega) k
      rw [hgf, decide_eq_true hk] at hall
      exact Bool.noConfusion hall

/-- C4 (amended) witness: a concrete instantiation — node 2001, consumer at
    1, parents `[0, 0, 0, 0, 3, 2]`, 32-word slabs — applied at base-parent
    position 0. -/
theorem baseParentsFromCurrentLayerWitness :
    (0 : Nat) < BASE_DEGREE ∧
    listSlice (consumer_patch
        (fill_buffer (fun _ _ => List.replicate 8 0) 2001 1 [0, 0, 0, 0, 3, 2]
          (List.replicate 32 0) none (List.replicate 512 0)
          (BitMask.mk 0)).1
        (fill_buffer (fun _ _ => List.replicate 8 0) 2001 1 [0, 0, 0, 0, 3, 2]
          (List.replicate 32 0) none (List.replicate 512 0)
          (BitMask.mk 0)).2.1
        (List.replicate 32 0) [0, 0, 0, 0, 3, 2])
      (64 + NODE_SIZE * 0) NODE_SIZE =
    (if (fill_buffer (fun _ _ => List.replicate 8 0) 2001 1 [0, 0, 0, 0, 3, 2]
          (List.replicate 32 0) none (List.replicate 512 0)
          (BitMask.mk 0)).2.1.get 0 then
      slabNodeBytes (List.replicate 32 0) ([0, 0, 0, 0, 3, 2].getD 0 0 * NODE_WORDS)
    else
      slabNodeBytes (fill_buffer (fun _ _ => List.replicate 8 0) 2001 1
          [0, 0, 0, 0, 3, 2] (List.replicate 32 0) none (List.replicate 512 0)
          (BitMask.mk 0)).2.2
        ([0, 0, 0, 0, 3, 2].getD 0 0 * NODE_WORDS)) :=
  ⟨by decide,
    baseParentsFromCurrentLayer (fun _ _ => List.replicate 8 0) 2001 1
      [0, 0, 0, 0, 3, 2] (List.replicate 32 0) (List.replicate 32 0) none
      (List.replicate 512 0) _ _ _ rfl (by simp) (by decide) (by decide)
      0 (by decide)⟩

end Sdr

end RustProofs
